import Mathlib

/-!
# KeyValueStore: a quorum-replicated in-memory register (`kvs.go`)

Shallow embedding of the Go package `kvs`.

* Go's `int` is modelled as `Int`; the only arithmetic the program performs on
  it, `wts + 1` in `Put`, wraps at 64 bits (`wrapInt`).
* The mutex is not modelled: each function below is one critical section (or a
  sequence of them executed without interference).
* A channel is its state (`nil`, live, closed) together with its buffer.
* A reply sent on `req.respChan` is the second component of the result of
  `handle`; the replies that reach the collector of `broadcast` are an explicit
  argument, listed in the order in which they arrive.
* Concurrent executions of several peers are sequences of atomic steps of a
  `Cluster`: a step is one critical section or one channel operation. Every
  request is sent by a goroutine of its own, so requests reach a queue, and
  replies a collector, in any order.
-/

namespace kvs

/-! ## Machine integers and constants -/

/-- Largest value of Go's `int` on a 64-bit target. -/
def maxInt : Int := 9223372036854775807

/-- Smallest value of Go's `int` on a 64-bit target. -/
def minInt : Int := -9223372036854775808

/-- Two's-complement wrap-around of a mathematical integer into Go's `int`. -/
def wrapInt (x : Int) : Int :=
  (x + 9223372036854775808) % 18446744073709551616 - 9223372036854775808

/-- Membership in the range of Go's `int`. -/
def isInt (x : Int) : Prop := minInt ≤ x ∧ x ≤ maxInt

instance (x : Int) : Decidable (isInt x) := by
  unfold isInt; exact inferInstance

/-- Request kind `READ = iota`. -/
def READ : Int := 0

/-- Request kind `WRITE`. -/
def WRITE : Int := 1

/-- Capacity of the inbound queue. -/
def bufferSize : Nat := 100

/-! ## Data model -/

/-- Go `type value struct { v string; ts int }`. -/
structure value where
  v : String
  ts : Int
deriving DecidableEq, Repr

/-- The Go zero value of `value`, returned by a map lookup of an absent key. -/
def value.zero : value := { v := "", ts := 0 }

/-- Go `type request struct`; the reply channel `respChan` is represented by the
reply that `handle` returns. -/
structure request where
  rtype : Int
  pid : Int
  k : String
  v : value
deriving DecidableEq, Repr

/-- Go `type response struct { pid int; v value }`. -/
structure response where
  pid : Int
  v : value
deriving DecidableEq, Repr

/-- State of the channel `incoming`: the nil channel of a peer that was never
started, a live channel with its buffered requests, or a closed channel. -/
inductive Chan where
  | nil : Chan
  | live (queue : List request) : Chan
  | closed (queue : List request) : Chan
deriving DecidableEq, Repr

/-- Go `map[string]value`: `none` is an absent key. -/
abbrev Store := String → Option value

/-- Map assignment `m[k] = v`. -/
def Store.set (m : Store) (k : String) (v : value) : Store :=
  fun j => if j = k then some v else m j

/-- Map lookup `m[k]`, which yields the zero value for an absent key. -/
def Store.lookup (m : Store) (k : String) : value :=
  (m k).getD value.zero

/-- Go `type KVS struct` without the mutex; `peers` keeps the ids that are the
keys of the peer directory. -/
structure KVS where
  running : Bool
  pid : Int
  wts : Int
  store : Store
  incoming : Chan
  peers : List Int

/-- Go `NewKVS`. -/
def NewKVS (pid : Int) : KVS :=
  { pid := pid, wts := 0, running := false, store := fun _ => none,
    incoming := Chan.nil, peers := [] }

/-- Go `(*KVS).Start`: records the directory, sets the flag and makes a fresh
queue (the server loop it launches is `handle`, applied to each request). -/
def KVS.Start (s : KVS) (peers : List Int) : KVS :=
  { s with peers := peers, running := true, incoming := Chan.live [] }

/-- Go `(*KVS).get`. -/
def KVS.get (s : KVS) (k : String) : value :=
  s.store.lookup k

/-- Go `(*KVS).put`. -/
def KVS.put (s : KVS) (k : String) (v : value) : KVS :=
  { s with store := s.store.set k v }

/-- Go `(*KVS).IsRunning`. -/
def KVS.IsRunning (s : KVS) : Bool :=
  s.running

/-- Body of the loop of Go `(*KVS).run` for a request taken from the queue, when
no critical section of a client call of this peer runs between `s.get` (line 86)
and `s.put` (line 92): the new state and the reply sent on the request's reply
channel, if any. The two halves are `s.get` and `KVS.respond`, which the steps
`dequeue` and `respond` of a `Cluster` execute separately. -/
def KVS.handle (s : KVS) (req : request) : KVS × Option response :=
  let v := s.get req.k
  if req.rtype = READ then
    (s, some { pid := s.pid, v := v })
  else if req.rtype = WRITE then
    let s1 := if req.v.ts > v.ts ∨ (req.v.ts = v.ts ∧ req.pid > s.pid) then s.put req.k req.v else s
    (s1, some { pid := s1.pid, v := value.zero })
  else
    (s, none)

/-- Go `(*KVS).Stop`: `ok` is normal completion; `error` is the panic raised by
`close` on a nil or closed channel, with the state reached when it is raised
(the flag is already cleared). -/
def KVS.Stop (s : KVS) : Except KVS KVS :=
  let s1 := { s with running := false }
  match s1.incoming with
  | Chan.live q => Except.ok { s1 with incoming := Chan.closed q }
  | _ => Except.error s1

/-- The peer state left behind by `Stop`, whether it completed or panicked. -/
def stateOf : Except KVS KVS → KVS
  | Except.ok s => s
  | Except.error s => s

/-! ## Broadcast and quorum -/

/-- The number of replies `broadcast` waits for: `n := len(peers)/2`. -/
def quorum (m : Nat) : Nat := m / 2

/-- The collection loop of `broadcast`, `for i := 0; i < n; i++ { ret = append(ret, <-resps) }`,
run on the replies that are ever sent to `resps`, in arrival order. A receive
with no reply left never completes (`resps` is closed only after the loop), which
is the result `none`. -/
def collect : Nat → List response → List response → Option (List response)
  | 0, _, ret => some ret
  | _ + 1, [], _ => none
  | n + 1, r :: rest, ret => collect n rest (ret ++ [r])

/-- Go `(*KVS).broadcast`: `r` is sent to every peer of the directory and
`arrivals` are the replies forwarded to the collector, in arrival order (a peer
whose send fails or whose reply times out contributes none). -/
def KVS.broadcast (_s : KVS) (_r : request) (peers : List Int) (arrivals : List response) :
    Option (List response) :=
  collect (quorum peers.length) arrivals []

/-! ## Client operations -/

/-- The loop of `Put` over the read-phase responses, started at `s.wts`. -/
def putLoop (wts : Int) (resps : List response) : Int :=
  resps.foldl (fun w resp => if w < resp.v.ts then resp.v.ts else w) wts

/-- Critical section of Go `(*KVS).Put` (the self-apply step). -/
def KVS.PutApply (s : KVS) (k v : String) (resps : List response) : KVS :=
  let wts := putLoop s.wts resps
  let s1 := { s with wts := wrapInt (wts + 1) }
  { s1 with store := s1.store.set k { v := v, ts := s1.wts } }

/-- The WRITE request that `Put` builds after its critical section; its value is
read back from the store (`v: s.store[k]`). -/
def KVS.PutWrite (s : KVS) (k : String) : request :=
  { rtype := WRITE, pid := s.pid, k := k, v := s.store.lookup k }

/-- The loop of `Get` over the read-phase responses, started at the local value. -/
def getLoop (pid : Int) (v : value) (resps : List response) : value :=
  resps.foldl
    (fun v resp => if resp.v.ts > v.ts ∨ (resp.v.ts = v.ts ∧ resp.pid > pid) then resp.v else v) v

/-- Critical section of Go `(*KVS).Get` (the install step) with the selected value. -/
def KVS.GetApply (s : KVS) (k : String) (resps : List response) : KVS × value :=
  let v := getLoop s.pid (s.store.lookup k) resps
  ({ s with store := s.store.set k v }, v)

/-- The read request that opens `Put` and `Get`. -/
def KVS.readRequest (s : KVS) (k : String) : request :=
  { rtype := READ, pid := s.pid, k := k, v := value.zero }

/-- Go `(*KVS).Put` executed without interference from the server loop, that is
with no request served between the unlock (line 134) and the read of
`s.store[k]` (line 140): the final state and the WRITE request that was
broadcast, or `none` when one of the two broadcasts never returns. With
interference, `Put` is the steps `proceed` of a `Cluster`. -/
def KVS.Put (s : KVS) (k v : String) (readArrivals writeArrivals : List response) :
    Option (KVS × request) :=
  match s.broadcast (s.readRequest k) s.peers readArrivals with
  | none => none
  | some resps =>
    let s1 := s.PutApply k v resps
    let w := s1.PutWrite k
    match s1.broadcast w s1.peers writeArrivals with
    | none => none
    | some _ => some (s1, w)

/-- The WRITE request that `Get` builds from the value it selected (`v: v`). -/
def KVS.GetWrite (s : KVS) (k : String) (v : value) : request :=
  { rtype := WRITE, pid := s.pid, k := k, v := v }

/-- Go `(*KVS).Get` executed without interference from the server loop: the
final state, the WRITE request that was broadcast and the returned payload, or
`none` when one of the two broadcasts never returns. -/
def KVS.Get (s : KVS) (k : String) (readArrivals writeArrivals : List response) :
    Option (KVS × request × String) :=
  match s.broadcast (s.readRequest k) s.peers readArrivals with
  | none => none
  | some resps =>
    let r := s.GetApply k resps
    let w := r.1.GetWrite k r.2
    match r.1.broadcast w r.1.peers writeArrivals with
    | none => none
    | some _ => some (r.1, w, r.2.v)

/-! ## Client histories on a singleton peer -/

/-- A client call. -/
inductive Op where
  | put (k v : String) : Op
  | get (k : String) : Op
deriving DecidableEq, Repr

/-- One client call on a peer whose directory is empty: no request is sent, so
no reply arrives in either phase. The second component is the result of a `Get`. -/
def singletonStep (s : KVS) : Op → Option (KVS × Option String)
  | Op.put k v => (s.Put k v [] []).map fun r => (r.1, none)
  | Op.get k => (s.Get k [] []).map fun r => (r.1, some r.2.2)

/-- The results of the `Get` calls of a history, in order; `none` when a call
never returns. -/
def runOps (s : KVS) : List Op → Option (List String)
  | [] => some []
  | op :: ops =>
    match singletonStep s op with
    | none => none
    | some (s1, out) => (runOps s1 ops).map fun outs => out.toList ++ outs

/-! ## Reference definitions, written from the specification -/

/-- Spec: "the maximum of the peer's own write-timestamp counter and every
timestamp in the collected READ responses". -/
def specMaxTs (wts : Int) (resps : List response) : Int :=
  (resps.map fun r => r.v.ts).foldr max wts

/-- Spec: `(ts₁, p₁) > (ts₂, p₂)` iff `ts₁ > ts₂` or (`ts₁ = ts₂` and `p₁ > p₂`),
on values tagged with a peer id. -/
def specFresher (a b : response) : Prop :=
  a.v.ts > b.v.ts ∨ (a.v.ts = b.v.ts ∧ a.pid > b.pid)

instance (a b : response) : Decidable (specFresher a b) := by
  unfold specFresher; exact inferInstance

/-- Spec: the freshest of a non-empty list of tagged candidates under `specFresher`. -/
def specFreshest (c : response) (cs : List response) : response :=
  cs.foldl (fun best r => if specFresher r best then r else best) c

/-- Spec: a plain map from keys to payloads with default `""`, run on a history;
the results of its `get` calls in order. -/
def specRun (m : String → String) : List Op → List String
  | [] => []
  | Op.put k v :: ops => specRun (fun j => if j = k then v else m j) ops
  | Op.get k :: ops => m k :: specRun m ops

/-! ## Concrete peers and replies used as test inputs -/

/-- Peer 0 of a three-peer cluster after it served two WRITEs of peer 1 for `"k"`
(timestamps 1 and 2); it has not originated a write itself. -/
def aheadReplica : KVS :=
  ((((NewKVS 0).Start [1, 2]).handle ⟨WRITE, 1, "k", ⟨"a", 1⟩⟩).1.handle
    ⟨WRITE, 1, "k", ⟨"b", 2⟩⟩).1

/-- The reply of peer 2, which holds nothing for `"k"`, to a READ of peer 0. -/
def staleReplies : List response :=
  (((NewKVS 2).Start [0, 1]).handle ⟨READ, 0, "k", value.zero⟩).2.toList

/-- Peer 0 of a five-peer cluster, freshly started. -/
def reader0 : KVS := (NewKVS 0).Start [1, 2, 3, 4]

/-- Two replies that carry different payloads under the same timestamp. -/
def tiedReplies : List response := [⟨2, ⟨"a", 1⟩⟩, ⟨1, ⟨"b", 1⟩⟩]

/-- Peer 0 of a three-peer cluster, freshly started. -/
def peer0 : KVS := (NewKVS 0).Start [1, 2]

/-- Peer 0 after `Put("k0", "v0")` whose read phase was answered by peer 1 (peer 2
was stopped). -/
def writer0 : KVS :=
  peer0.PutApply "k0" "v0" (((NewKVS 1).Start [0, 2]).handle ⟨READ, 0, "k0", value.zero⟩).2.toList

/-- The reply of `writer0` to a READ of `"k0"` sent by peer 2. -/
def writer0Reply : List response :=
  (writer0.handle ⟨READ, 2, "k0", value.zero⟩).2.toList

/-- Peer 2 after being started, stopped and started again. -/
def restarted2 : KVS :=
  (stateOf ((NewKVS 2).Start [0, 1]).Stop).Start [0, 1]

/-! ## Histories of one peer -/

/-- Whether `Stop` completed normally (`false`: it panicked). -/
def completes : Except KVS KVS → Bool
  | Except.ok _ => true
  | Except.error _ => false

/-- One state-changing operation of a peer: the critical section of `Put` or of
`Get` with the read-phase responses it collected, the handling of a request by
the server loop, `Stop`, or `Start`. -/
inductive LocalOp where
  | put (k v : String) (resps : List response) : LocalOp
  | get (k : String) (resps : List response) : LocalOp
  | serve (req : request) : LocalOp
  | stop : LocalOp
  | start (peers : List Int) : LocalOp

/-- Whether the operation is a call of `Start`. -/
def LocalOp.isStart : LocalOp → Bool
  | LocalOp.start _ => true
  | _ => false

/-- The peer state after one operation. -/
def KVS.exec (s : KVS) : LocalOp → KVS
  | LocalOp.put k v resps => s.PutApply k v resps
  | LocalOp.get k resps => (s.GetApply k resps).1
  | LocalOp.serve req => (s.handle req).1
  | LocalOp.stop => stateOf s.Stop
  | LocalOp.start peers => s.Start peers

/-- The peer state after a history of operations. -/
def KVS.execAll (s : KVS) : List LocalOp → KVS
  | [] => s
  | op :: ops => (s.exec op).execAll ops

/-! ## A cluster of peers

The peers of a cluster run concurrently. An execution is a sequence of atomic
steps (`Event`), one per critical section or channel operation of `kvs.go`;
requests and replies that were sent and not yet received are kept in pools, from
which they are taken in any order. -/

/-- The second part of the loop body of Go `(*KVS).run`, lines 87-98, for the
request `req` and the value `v` that `s.get(req.k)` returned earlier. -/
def KVS.respond (s : KVS) (req : request) (v : value) : KVS × Option response :=
  if req.rtype = READ then
    (s, some { pid := s.pid, v := v })
  else if req.rtype = WRITE then
    let s1 := if req.v.ts > v.ts ∨ (req.v.ts = v.ts ∧ req.pid > s.pid) then s.put req.k req.v else s
    (s1, some { pid := s1.pid, v := value.zero })
  else
    (s, none)

/-- The two broadcasts of a client call. -/
inductive Round where
  | read : Round
  | write : Round
deriving DecidableEq, Repr

/-- A request sent by the broadcast `round` of client call `op` to the queue of
peer `dest`. -/
structure Msg where
  dest : Int
  op : Nat
  round : Round
  req : request
deriving DecidableEq, Repr

/-- A reply sent on the reply channel of a request of the broadcast `round` of
client call `op`. -/
structure Reply where
  op : Nat
  round : Round
  resp : response
deriving DecidableEq, Repr

/-- Where a client call stands: `Put` collecting READ replies, `Put` after its
critical section, `Put` collecting acknowledgements, `Get` collecting READ
replies, `Get` collecting acknowledgements for the value it selected, or returned. -/
inductive Phase where
  | putRead : Phase
  | putApplied : Phase
  | putWrite : Phase
  | getRead : Phase
  | getWrite (v : value) : Phase
  | done : Phase
deriving DecidableEq, Repr

/-- The broadcast whose replies a call is collecting. -/
def Phase.round : Phase → Option Round
  | Phase.putRead => some Round.read
  | Phase.getRead => some Round.read
  | Phase.putWrite => some Round.write
  | Phase.getWrite _ => some Round.write
  | _ => none

/-- A client call in progress at peer `pid`: its key, the payload of a `Put`,
its phase and the replies its running broadcast has collected (`ret`). -/
structure Call where
  pid : Int
  k : String
  v : String
  phase : Phase
  collected : List response
deriving DecidableEq, Repr

/-- What clients observe: calls and returns. -/
inductive Obs where
  | putCall (pid : Int) (k v : String) : Obs
  | putRet (pid : Int) (k : String) : Obs
  | getCall (pid : Int) (k : String) : Obs
  | getRet (pid : Int) (k payload : String) : Obs
deriving DecidableEq, Repr

/-- State of a cluster: every peer, the request each server loop holds between
`s.get` and its reply, the requests and replies in transit, the client calls by
number, and the log of calls and returns. -/
structure Cluster where
  peer : Int → KVS
  serving : Int → Option (Nat × Round × request × value)
  net : List Msg
  replies : List Reply
  calls : Nat → Option Call
  next : Nat
  log : List Obs

/-- An atomic step of a cluster. -/
inductive Event where
  | callPut (p : Int) (k v : String) : Event
  | callGet (p : Int) (k : String) : Event
  | dequeue (i : Nat) : Event
  | respond (p : Int) : Event
  | recv (i : Nat) : Event
  | proceed (o : Nat) : Event
deriving DecidableEq, Repr

/-- The requests that a broadcast of peer `s` sends, one per peer of its directory. -/
def KVS.outgoing (s : KVS) (op : Nat) (round : Round) (req : request) : List Msg :=
  s.peers.map fun d => { dest := d, op := op, round := round, req := req }

/-- Replace the state of peer `p`. -/
def Cluster.setPeer (c : Cluster) (p : Int) (s : KVS) : Int → KVS :=
  fun q => if q = p then s else c.peer q

/-- Replace call number `o`. -/
def Cluster.setCall (c : Cluster) (o : Nat) (call : Call) : Nat → Option Call :=
  fun i => if i = o then some call else c.calls i

/-- The next section of call `o` of peer state `s`, once its broadcast has
collected its quorum: the critical section of `Put`, the construction and
broadcast of its WRITE request, the critical section of `Get` followed by the
broadcast of its WRITE request, or the return. -/
def Cluster.proceed (c : Cluster) (o : Nat) (call : Call) : Option Cluster :=
  let s := c.peer call.pid
  let full : Prop := call.collected.length = quorum s.peers.length
  match call.phase with
  | Phase.putRead =>
    if full then
      some { c with
        peer := c.setPeer call.pid (s.PutApply call.k call.v call.collected)
        calls := c.setCall o { call with phase := Phase.putApplied, collected := [] } }
    else none
  | Phase.putApplied =>
    some { c with
      net := c.net ++ s.outgoing o Round.write (s.PutWrite call.k)
      calls := c.setCall o { call with phase := Phase.putWrite } }
  | Phase.putWrite =>
    if full then
      some { c with
        calls := c.setCall o { call with phase := Phase.done }
        log := c.log ++ [Obs.putRet call.pid call.k] }
    else none
  | Phase.getRead =>
    if full then
      let r := s.GetApply call.k call.collected
      some { c with
        peer := c.setPeer call.pid r.1
        net := c.net ++ r.1.outgoing o Round.write (r.1.GetWrite call.k r.2)
        calls := c.setCall o { call with phase := Phase.getWrite r.2, collected := [] } }
    else none
  | Phase.getWrite v =>
    if full then
      some { c with
        calls := c.setCall o { call with phase := Phase.done }
        log := c.log ++ [Obs.getRet call.pid call.k v.v] }
    else none
  | Phase.done => none

/-- One step of a cluster; `none` when the event is not enabled.
* `callPut`, `callGet`: a client calls `Put` or `Get` at peer `p`, which
  broadcasts its READ request.
* `dequeue i`: the server loop of the destination of the `i`-th request in
  transit, running and idle, takes it from its queue and executes `s.get(req.k)`.
* `respond p`: the server loop of `p` finishes the request it holds.
* `recv i`: the `i`-th reply in transit reaches the collector of its broadcast,
  which has not yet collected its quorum.
* `proceed o`: call `o` runs its next section. -/
def Cluster.step (c : Cluster) : Event → Option Cluster
  | Event.callPut p k v =>
    some { c with
      net := c.net ++ (c.peer p).outgoing c.next Round.read ((c.peer p).readRequest k)
      calls := c.setCall c.next { pid := p, k := k, v := v, phase := Phase.putRead, collected := [] }
      next := c.next + 1
      log := c.log ++ [Obs.putCall p k v] }
  | Event.callGet p k =>
    some { c with
      net := c.net ++ (c.peer p).outgoing c.next Round.read ((c.peer p).readRequest k)
      calls := c.setCall c.next { pid := p, k := k, v := "", phase := Phase.getRead, collected := [] }
      next := c.next + 1
      log := c.log ++ [Obs.getCall p k] }
  | Event.dequeue i =>
    match c.net[i]? with
    | none => none
    | some m =>
      if (c.peer m.dest).running = true ∧ c.serving m.dest = none then
        some { c with
          net := c.net.eraseIdx i
          serving := fun q =>
            if q = m.dest then some (m.op, m.round, m.req, (c.peer m.dest).get m.req.k)
            else c.serving q }
      else none
  | Event.respond p =>
    match c.serving p with
    | none => none
    | some (op, round, req, v) =>
      let r := (c.peer p).respond req v
      some { c with
        peer := c.setPeer p r.1
        serving := fun q => if q = p then none else c.serving q
        replies := c.replies ++ (r.2.map fun resp => { op := op, round := round, resp := resp }).toList }
  | Event.recv i =>
    match c.replies[i]? with
    | none => none
    | some r =>
      match c.calls r.op with
      | none => none
      | some call =>
        if call.phase.round = some r.round ∧
            call.collected.length < quorum (c.peer call.pid).peers.length then
          some { c with
            replies := c.replies.eraseIdx i
            calls := c.setCall r.op { call with collected := call.collected ++ [r.resp] } }
        else none
  | Event.proceed o =>
    match c.calls o with
    | none => none
    | some call => c.proceed o call

/-- An execution: the steps in order; `none` when one of them is not enabled. -/
def Cluster.run (c : Cluster) : List Event → Option Cluster
  | [] => some c
  | e :: es =>
    match c.step e with
    | none => none
    | some c1 => c1.run es

/-- A cluster in which every peer `p` was created and started with the
directory `dirs p`; nothing is in transit and no client call was made. -/
def Cluster.start (dirs : Int → List Int) : Cluster :=
  { peer := fun p => (NewKVS p).Start (dirs p), serving := fun _ => none, net := [],
    replies := [], calls := fun _ => none, next := 0, log := [] }

/-- The directories of three fully connected peers 0, 1, 2. -/
def dirs3 (p : Int) : List Int :=
  if p = 0 then [1, 2] else if p = 1 then [0, 2] else if p = 2 then [0, 1] else []

/-- The three fully connected peers 0, 1, 2 of the tests. -/
def cluster3 : Cluster := Cluster.start dirs3

/-- The value `x` is the zero value or carries the payload of a `Put` that was
called for the key `k`. -/
def tracedIn (log : List Obs) (k : String) (x : value) : Prop :=
  x = value.zero ∨ ∃ p, Obs.putCall p k x.v ∈ log

/-- Provenance invariant of a cluster: every value in a store, in a request in
transit or held by a server loop, in a reply in transit or collected by a call,
or selected by a `Get`, is traced to a `Put` for the key it belongs to; requests
and replies belong to calls that exist and have their key; a `Put` that has not
yet run its critical section is in the log; call numbers from `next` on are
unused; every returned payload is empty or that of a `Put` for the same key. -/
structure Cluster.Inv (c : Cluster) : Prop where
  stored : ∀ (p : Int) (k : String) (x : value), (c.peer p).store k = some x → tracedIn c.log k x
  sent : ∀ m ∈ c.net,
    tracedIn c.log m.req.k m.req.v ∧ ∃ call, c.calls m.op = some call ∧ call.k = m.req.k
  held : ∀ (p : Int) (op : Nat) (rnd : Round) (req : request) (v : value),
    c.serving p = some (op, rnd, req, v) →
      tracedIn c.log req.k req.v ∧ tracedIn c.log req.k v ∧
        ∃ call, c.calls op = some call ∧ call.k = req.k
  replied : ∀ r ∈ c.replies, ∃ call, c.calls r.op = some call ∧ tracedIn c.log call.k r.resp.v
  collected : ∀ (o : Nat) (call : Call), c.calls o = some call →
    (∀ r ∈ call.collected, tracedIn c.log call.k r.v) ∧
    (∀ v, call.phase = Phase.getWrite v → tracedIn c.log call.k v) ∧
    (call.phase = Phase.putRead → Obs.putCall call.pid call.k call.v ∈ c.log)
  fresh : ∀ o, c.next ≤ o → c.calls o = none
  returned : ∀ (p : Int) (k y : String), Obs.getRet p k y ∈ c.log →
    y = "" ∨ ∃ q, Obs.putCall q k y ∈ c.log

/-- The execution of `TestKVSSync` restricted to key `"k0"`: `s0.Put("k0", "v0")`
is acknowledged by peer 2 while its requests to peer 1 are still on their way;
`s2.Put("k0", "v00")` reads from peer 1 and is acknowledged by peer 0; then the
WRITE of the first `Put` reaches peer 1; `s0.Get("k0")` reads from peer 1. -/
def staleTrace : List Event :=
  [Event.callPut 0 "k0" "v0", Event.dequeue 1, Event.respond 2, Event.recv 0, Event.proceed 0,
   Event.proceed 0, Event.dequeue 2, Event.respond 2, Event.recv 0, Event.proceed 0,
   Event.callPut 2 "k0" "v00", Event.dequeue 3, Event.respond 1, Event.recv 0, Event.proceed 1,
   Event.proceed 1, Event.dequeue 3, Event.respond 0, Event.recv 0, Event.proceed 1,
   Event.dequeue 1, Event.respond 1,
   Event.callGet 0 "k0", Event.dequeue 3, Event.respond 1, Event.recv 1, Event.proceed 2,
   Event.dequeue 4, Event.respond 1, Event.recv 1, Event.proceed 2]

/-- Three concurrent writers of key `"0"` (as in `TestKVSConcurrent`, for `i = 0`),
their steps interleaved, followed by `s0.Get("0")`. -/
def concurrentTrace : List Event :=
  [Event.callPut 0 "0" "0_0", Event.callPut 1 "0" "0_1", Event.callPut 2 "0" "0_2",
   Event.dequeue 0, Event.respond 1, Event.dequeue 1, Event.respond 0,
   Event.dequeue 2, Event.respond 0, Event.recv 0, Event.recv 0, Event.recv 0,
   Event.proceed 0, Event.proceed 1, Event.proceed 2,
   Event.proceed 0, Event.proceed 1, Event.proceed 2,
   Event.dequeue 3, Event.respond 1, Event.dequeue 4, Event.respond 0,
   Event.dequeue 5, Event.respond 0, Event.recv 0, Event.recv 0, Event.recv 0,
   Event.proceed 0, Event.proceed 1, Event.proceed 2,
   Event.callGet 0 "0", Event.dequeue 7, Event.respond 2, Event.recv 0, Event.proceed 3,
   Event.dequeue 7, Event.respond 1, Event.recv 0, Event.proceed 3]

/-- The cluster at the end of `concurrentTrace`. -/
def concurrentFinal : Cluster := (cluster3.run concurrentTrace).getD cluster3

/-- Peer 1 runs `Put("k", "a")` up to the broadcast of its WRITE request; peer 0
runs the critical section of `Put("k", "c")`, its server loop then handles the
WRITE request of peer 1, and `Put("k", "c")` builds and broadcasts its own WRITE
request, is acknowledged by peer 1 and returns. -/
def readBackTrace : List Event :=
  [Event.callPut 1 "k" "a", Event.dequeue 1, Event.respond 2, Event.recv 0, Event.proceed 0,
   Event.proceed 0,
   Event.callPut 0 "k" "c", Event.dequeue 4, Event.respond 2, Event.recv 0, Event.proceed 1,
   Event.dequeue 1, Event.respond 0,
   Event.proceed 1, Event.dequeue 3, Event.respond 1, Event.recv 1, Event.proceed 1]

/-- Peer 1 completes `Put("k", "a")`, acknowledged by peer 2; peer 0 calls
`Put("k", "c")` and collects the reply `("a", 1)` of peer 2; the server loop of
peer 0 takes the WRITE request of peer 1 from its queue and reads the stored
value; the critical section of `Put("k", "c")` runs. -/
def lateWriteTrace : List Event :=
  [Event.callPut 1 "k" "a", Event.dequeue 1, Event.respond 2, Event.recv 0, Event.proceed 0,
   Event.proceed 0, Event.dequeue 2, Event.respond 2, Event.recv 0, Event.proceed 0,
   Event.callPut 0 "k" "c", Event.dequeue 3, Event.respond 2, Event.recv 0,
   Event.dequeue 1, Event.proceed 1]

/-- Peer 1 completes `Put("j", "x")` and runs `Put("k", "b")`, which it labels with
timestamp 2. Peer 0 runs `Put("k", "c")`: after its critical section its server
loop applies the WRITE `("b", 2)` of peer 1, then the call broadcasts its WRITE
request and returns. Peer 0 then runs `Put("k", "d")`, whose read phase is
answered by peer 2, which holds nothing for `"k"`. -/
def labelTrace : List Event :=
  [Event.callPut 1 "j" "x", Event.dequeue 1, Event.respond 2, Event.recv 0, Event.proceed 0,
   Event.proceed 0, Event.dequeue 2, Event.respond 2, Event.recv 0, Event.proceed 0,
   Event.callPut 1 "k" "b", Event.dequeue 3, Event.respond 2, Event.recv 0, Event.proceed 1,
   Event.proceed 1,
   Event.callPut 0 "k" "c", Event.dequeue 6, Event.respond 2, Event.recv 0, Event.proceed 2,
   Event.dequeue 3, Event.respond 0,
   Event.proceed 2, Event.recv 0, Event.proceed 1,
   Event.dequeue 5, Event.respond 1, Event.recv 0, Event.proceed 2,
   Event.callPut 0 "k" "d", Event.dequeue 7, Event.respond 2, Event.recv 0, Event.proceed 3,
   Event.proceed 3, Event.dequeue 7, Event.respond 1, Event.recv 0, Event.proceed 3]

/-! # Lemmas -/

/-! ## Arithmetic of `wrapInt` -/

theorem wrapInt_of_isInt (x : Int) (h : isInt x) : wrapInt x = x := by
  unfold isInt minInt maxInt at h
  unfold wrapInt
  omega

theorem wrapInt_succ (x : Int) (hlo : minInt ≤ x) (hhi : x < maxInt) : wrapInt (x + 1) = x + 1 := by
  unfold minInt at hlo
  unfold maxInt at hhi
  unfold wrapInt
  omega

theorem isInt_wrapInt (x : Int) : isInt (wrapInt x) := by
  unfold isInt minInt maxInt wrapInt
  omega

/-! ## The store -/

theorem Store.lookup_set_same (m : Store) (k : String) (v : value) :
    (m.set k v).lookup k = v := by
  simp [Store.lookup, Store.set]

theorem Store.lookup_set_other (m : Store) (k j : String) (v : value) (h : j ≠ k) :
    (m.set k v).lookup j = m.lookup j := by
  simp [Store.lookup, Store.set, h]

theorem Store.lookup_absent (m : Store) (k : String) (h : m k = none) :
    m.lookup k = value.zero := by
  simp [Store.lookup, h]

/-! ## The loop of `Put` -/

theorem putLoop_cons (wts : Int) (r : response) (rs : List response) :
    putLoop wts (r :: rs) = putLoop (max wts r.v.ts) rs := by
  have h : (if wts < r.v.ts then r.v.ts else wts) = max wts r.v.ts := by
    rcases lt_or_le wts r.v.ts with h | h
    · rw [if_pos h, max_eq_right (le_of_lt h)]
    · rw [if_neg (not_lt.mpr h), max_eq_left h]
  simp only [putLoop, List.foldl_cons, h]

theorem specMaxTs_cons (wts : Int) (r : response) (rs : List response) :
    specMaxTs wts (r :: rs) = max r.v.ts (specMaxTs wts rs) := by
  simp [specMaxTs]

theorem specMaxTs_max (wts t : Int) (rs : List response) :
    specMaxTs (max wts t) rs = max t (specMaxTs wts rs) := by
  induction rs with
  | nil => simp [specMaxTs, max_comm]
  | cons r rs ih => rw [specMaxTs_cons, specMaxTs_cons, ih, max_left_comm]

theorem putLoop_eq_specMaxTs (wts : Int) (resps : List response) :
    putLoop wts resps = specMaxTs wts resps := by
  induction resps generalizing wts with
  | nil => simp [putLoop, specMaxTs]
  | cons r rs ih => rw [putLoop_cons, ih, specMaxTs_max, specMaxTs_cons]

theorem le_specMaxTs (wts : Int) (resps : List response) : wts ≤ specMaxTs wts resps := by
  induction resps with
  | nil => simp [specMaxTs]
  | cons r rs ih => rw [specMaxTs_cons]; exact le_trans ih (le_max_right _ _)

theorem resp_le_specMaxTs (wts : Int) (resps : List response) (r : response) (h : r ∈ resps) :
    r.v.ts ≤ specMaxTs wts resps := by
  induction resps with
  | nil => cases h
  | cons a rs ih =>
    rw [specMaxTs_cons]
    rcases List.mem_cons.mp h with rfl | h
    · exact le_max_left _ _
    · exact le_trans (ih h) (le_max_right _ _)

theorem specMaxTs_attained (wts : Int) (resps : List response) :
    specMaxTs wts resps = wts ∨ ∃ r ∈ resps, specMaxTs wts resps = r.v.ts := by
  induction resps with
  | nil => left; simp [specMaxTs]
  | cons a rs ih =>
    rw [specMaxTs_cons]
    rcases le_total a.v.ts (specMaxTs wts rs) with h | h
    · rw [max_eq_right h]
      rcases ih with h1 | ⟨r, hr, h1⟩
      · exact Or.inl h1
      · exact Or.inr ⟨r, List.mem_cons_of_mem _ hr, h1⟩
    · rw [max_eq_left h]
      exact Or.inr ⟨a, List.mem_cons_self _ _, rfl⟩

theorem specMaxTs_le_of_subset (wts : Int) (l1 l2 : List response) (h : ∀ r ∈ l1, r ∈ l2) :
    specMaxTs wts l1 ≤ specMaxTs wts l2 := by
  rcases specMaxTs_attained wts l1 with h1 | ⟨r, hr, h1⟩
  · rw [h1]; exact le_specMaxTs wts l2
  · rw [h1]; exact resp_le_specMaxTs wts l2 r (h r hr)

theorem specMaxTs_perm (wts : Int) (l1 l2 : List response) (h : l1.Perm l2) :
    specMaxTs wts l1 = specMaxTs wts l2 :=
  le_antisymm (specMaxTs_le_of_subset wts l1 l2 fun _ hr => h.mem_iff.mp hr)
    (specMaxTs_le_of_subset wts l2 l1 fun _ hr => h.mem_iff.mpr hr)

/-! ## The loop of `Get` -/

theorem getLoop_nil (pid : Int) (v : value) : getLoop pid v [] = v := rfl

theorem getLoop_cons (pid : Int) (v : value) (r : response) (rs : List response) :
    getLoop pid v (r :: rs) =
      getLoop pid (if r.v.ts > v.ts ∨ (r.v.ts = v.ts ∧ r.pid > pid) then r.v else v) rs := rfl

theorem getLoop_ts (pid : Int) (v : value) (resps : List response) :
    (getLoop pid v resps).ts = specMaxTs v.ts resps := by
  induction resps generalizing v with
  | nil => simp [getLoop, specMaxTs]
  | cons r rs ih =>
    rw [getLoop_cons, ih, specMaxTs_cons, ← specMaxTs_max]
    congr 1
    split_ifs with h
    · rcases h with h | ⟨h, _⟩
      · exact (max_eq_right (le_of_lt h)).symm
      · rw [h, max_self]
    · have h1 : r.v.ts ≤ v.ts := by
        by_contra hc
        exact h (Or.inl (not_le.mp hc))
      exact (max_eq_left h1).symm

theorem getLoop_mem (pid : Int) (v : value) (resps : List response) :
    getLoop pid v resps = v ∨ ∃ r ∈ resps, getLoop pid v resps = r.v := by
  induction resps generalizing v with
  | nil => exact Or.inl rfl
  | cons r rs ih =>
    rw [getLoop_cons]
    rcases ih (if r.v.ts > v.ts ∨ (r.v.ts = v.ts ∧ r.pid > pid) then r.v else v) with h | ⟨x, hx, h⟩
    · rw [h]
      split_ifs
      · exact Or.inr ⟨r, List.mem_cons_self _ _, rfl⟩
      · exact Or.inl rfl
    · exact Or.inr ⟨x, List.mem_cons_of_mem _ hx, h⟩

/-- If every candidate that carries the largest timestamp is the value `x`, the
loop of `Get` ends on `x`. -/
theorem getLoop_eq_of_unique (pid : Int) (v x : value) (resps : List response)
    (hv : v.ts = specMaxTs v.ts resps → v = x)
    (hr : ∀ r ∈ resps, r.v.ts = specMaxTs v.ts resps → r.v = x) :
    getLoop pid v resps = x := by
  rcases getLoop_mem pid v resps with h | ⟨r, hmem, h⟩
  · rw [h]
    apply hv
    rw [← getLoop_ts pid, h]
  · rw [h]
    apply hr r hmem
    rw [← getLoop_ts pid, h]

/-! ## The specification's order -/

theorem specFreshest_cons (c r : response) (rs : List response) :
    specFreshest c (r :: rs) = specFreshest (if specFresher r c then r else c) rs := rfl

theorem specFreshest_mem (c : response) (cs : List response) :
    specFreshest c cs ∈ c :: cs := by
  induction cs generalizing c with
  | nil => simp [specFreshest]
  | cons r rs ih =>
    rw [specFreshest_cons]
    have h := ih (if specFresher r c then r else c)
    rcases List.mem_cons.mp h with h1 | h1
    · rw [h1]
      split_ifs
      · exact List.mem_cons_of_mem _ (List.mem_cons_self _ _)
      · exact List.mem_cons_self _ _
    · exact List.mem_cons_of_mem _ (List.mem_cons_of_mem _ h1)

theorem specFreshest_not_below (c x : response) (cs : List response) (h : ¬ specFresher x c) :
    ¬ specFresher x (specFreshest c cs) := by
  induction cs generalizing c with
  | nil => exact h
  | cons r rs ih =>
    rw [specFreshest_cons]
    apply ih
    split_ifs with hrc
    · unfold specFresher at h hrc ⊢
      omega
    · exact h

/-- No candidate is fresher, in the specification's order, than `specFreshest`. -/
theorem specFreshest_max (c : response) (cs : List response) (x : response)
    (hx : x ∈ c :: cs) : ¬ specFresher x (specFreshest c cs) := by
  induction cs generalizing c with
  | nil =>
    rcases List.mem_cons.mp hx with rfl | h
    · unfold specFreshest specFresher; simp
    · cases h
  | cons r rs ih =>
    rw [specFreshest_cons]
    rcases List.mem_cons.mp hx with rfl | h
    · apply specFreshest_not_below
      split_ifs with hrc
      · unfold specFresher at hrc ⊢
        omega
      · unfold specFresher
        omega
    · rcases List.mem_cons.mp h with rfl | h2
      · apply specFreshest_not_below
        split_ifs with hrc
        · unfold specFresher
          omega
        · exact hrc
      · exact ih _ (List.mem_cons_of_mem _ h2)

theorem specFreshest_ts (c : response) (cs : List response) :
    (specFreshest c cs).v.ts = specMaxTs c.v.ts cs := by
  induction cs generalizing c with
  | nil => simp [specFreshest, specMaxTs]
  | cons r rs ih =>
    rw [specFreshest_cons, ih, specMaxTs_cons, ← specMaxTs_max]
    congr 1
    split_ifs with h
    · unfold specFresher at h
      rcases h with h | ⟨h, _⟩
      · exact (max_eq_right (le_of_lt h)).symm
      · rw [h, max_self]
    · have h1 : r.v.ts ≤ c.v.ts := by
        unfold specFresher at h
        omega
      exact (max_eq_left h1).symm

/-! ## Effect of each operation on the store and the counter -/

theorem handle_wts (s : KVS) (req : request) : (s.handle req).1.wts = s.wts := by
  unfold KVS.handle KVS.put
  simp only
  split_ifs <;> rfl

theorem handle_get_mono (s : KVS) (req : request) (k : String) :
    (s.get k).ts ≤ ((s.handle req).1.get k).ts := by
  unfold KVS.handle
  simp only
  split_ifs with h1 h2 h3
  · exact le_refl _
  · by_cases hk : k = req.k
    · subst hk
      simp only [KVS.get, KVS.put, Store.lookup_set_same] at h3 ⊢
      omega
    · simp only [KVS.get, KVS.put, Store.lookup_set_other _ _ _ _ hk]
      exact le_refl _
  · exact le_refl _
  · exact le_refl _

theorem GetApply_wts (s : KVS) (k : String) (resps : List response) :
    (s.GetApply k resps).1.wts = s.wts := rfl

theorem GetApply_get_mono (s : KVS) (k : String) (resps : List response) (j : String) :
    (s.get j).ts ≤ ((s.GetApply k resps).1.get j).ts := by
  by_cases hj : j = k
  · subst hj
    simp only [KVS.GetApply, KVS.get, Store.lookup_set_same]
    rw [getLoop_ts]
    exact le_specMaxTs _ _
  · simp only [KVS.GetApply, KVS.get, Store.lookup_set_other _ _ _ _ hj]
    exact le_refl _

theorem Start_store (s : KVS) (peers : List Int) :
    (s.Start peers).store = s.store ∧ (s.Start peers).wts = s.wts := ⟨rfl, rfl⟩

theorem Stop_store (s : KVS) :
    (stateOf s.Stop).store = s.store ∧ (stateOf s.Stop).wts = s.wts := by
  unfold KVS.Stop
  simp only
  cases s.incoming <;> exact ⟨rfl, rfl⟩

theorem PutApply_wts (s : KVS) (k v : String) (resps : List response) :
    (s.PutApply k v resps).wts = wrapInt (specMaxTs s.wts resps + 1) := by
  simp only [KVS.PutApply, putLoop_eq_specMaxTs]

theorem PutApply_store (s : KVS) (k v : String) (resps : List response) :
    (s.PutApply k v resps).store = s.store.set k ⟨v, wrapInt (specMaxTs s.wts resps + 1)⟩ := by
  simp only [KVS.PutApply, putLoop_eq_specMaxTs]

/-! ## The collector of `broadcast` -/

theorem collect_eq_some (n : Nat) (arrivals ret : List response) (h : n ≤ arrivals.length) :
    collect n arrivals ret = some (ret ++ arrivals.take n) := by
  induction n generalizing arrivals ret with
  | zero => simp [collect]
  | succ n ih =>
    cases arrivals with
    | nil => simp at h
    | cons r rest =>
      have h1 : n ≤ rest.length := by simpa using h
      simp [collect, ih rest (ret ++ [r]) h1]

theorem collect_eq_none (n : Nat) (arrivals ret : List response) (h : arrivals.length < n) :
    collect n arrivals ret = none := by
  induction n generalizing arrivals ret with
  | zero => simp at h
  | succ n ih =>
    cases arrivals with
    | nil => simp [collect]
    | cons r rest =>
      have h1 : rest.length < n := by simpa using h
      simp [collect, ih rest (ret ++ [r]) h1]

theorem broadcast_empty_directory (s : KVS) (r : request) (arrivals : List response) :
    s.broadcast r [] arrivals = some [] := by
  simp [KVS.broadcast, quorum, collect]

/-! # Claims -/

/-- C1: per-key timestamp monotonicity fails in the self-apply step of `Put`.
Peer 0 holds `("b", 2)` for `"k"`, received from peer 1, and its own counter is
still 0; the read phase of its `Put("k", "c")` is answered by peer 2, which holds
nothing. `Put` installs `("c", 1)`: the timestamp stored for `"k"` drops from 2 to 1. -/
theorem PutApply_lowers_stored_timestamp :
    (aheadReplica.get "k") = ⟨"b", 2⟩ ∧
    staleReplies = [⟨2, ⟨"", 0⟩⟩] ∧
    (aheadReplica.PutApply "k" "c" staleReplies).get "k" = ⟨"c", 1⟩ ∧
    ((aheadReplica.PutApply "k" "c" staleReplies).get "k").ts < (aheadReplica.get "k").ts := by
  decide

/-- C2, counterexample: with two replies tied at timestamp 1, `Get` at peer 0
keeps the later one, `"b"` from peer 1, although the maximum under the
`(ts, id)` order is `"a"` from peer 2; with the replies in the other order it
selects `"a"`. -/
theorem Get_selection_depends_on_order :
    (reader0.GetApply "k" tiedReplies).2 = ⟨"b", 1⟩ ∧
    (specFreshest ⟨reader0.pid, reader0.get "k"⟩ tiedReplies).v = ⟨"a", 1⟩ ∧
    (reader0.GetApply "k" tiedReplies.reverse).2 = ⟨"a", 1⟩ := by
  decide

/-- C2, amended: `Get(k)` starts from the local value and goes through the
responses in arrival order; a response replaces the current choice iff its
timestamp is strictly greater, or equal with the responder's id greater than this
peer's own id. The value it installs is the local value or the value of a
response, and its timestamp is the maximum of the candidates' timestamps, that is
the timestamp of the `(ts, id)`-maximum, in every arrival order. With at most one
response it is the value of the `(ts, id)`-maximum. In general, if every
candidate that carries the maximum timestamp is the value `x`, then `Get` selects
`x`, which is the value of the `(ts, id)`-maximum, in every arrival order. -/
theorem Get_selects_max_timestamp (s : KVS) (k : String) (resps : List response) :
    (s.GetApply k []).2 = s.get k ∧
    (∀ r : response, (s.GetApply k (resps ++ [r])).2 =
      if r.v.ts > (s.GetApply k resps).2.ts ∨
          (r.v.ts = (s.GetApply k resps).2.ts ∧ r.pid > s.pid)
      then r.v else (s.GetApply k resps).2) ∧
    (s.GetApply k resps).1.store k = some (s.GetApply k resps).2 ∧
    ((s.GetApply k resps).2 = s.get k ∨ ∃ r ∈ resps, (s.GetApply k resps).2 = r.v) ∧
    (s.GetApply k resps).2.ts = specMaxTs (s.get k).ts resps ∧
    (s.GetApply k resps).2.ts = (specFreshest ⟨s.pid, s.get k⟩ resps).v.ts ∧
    (∀ resps2 : List response, resps2.Perm resps →
      (s.GetApply k resps2).2.ts = (s.GetApply k resps).2.ts) ∧
    (resps.length ≤ 1 → (s.GetApply k resps).2 = (specFreshest ⟨s.pid, s.get k⟩ resps).v) ∧
    (∀ x : value,
      ((s.get k).ts = specMaxTs (s.get k).ts resps → s.get k = x) →
      (∀ r ∈ resps, r.v.ts = specMaxTs (s.get k).ts resps → r.v = x) →
      (s.GetApply k resps).2 = x ∧ (specFreshest ⟨s.pid, s.get k⟩ resps).v = x ∧
      ∀ resps2 : List response, resps2.Perm resps → (s.GetApply k resps2).2 = x) := by
  refine ⟨rfl, ?_, ?_, ?_, ?_, ?_, ?_, ?_, ?_⟩
  · intro r
    show getLoop s.pid (s.get k) (resps ++ [r]) = _
    simp only [getLoop, List.foldl_append, List.foldl_cons, List.foldl_nil]
    rfl
  · simp [KVS.GetApply, Store.set]
  · exact getLoop_mem s.pid (s.get k) resps
  · exact getLoop_ts s.pid (s.get k) resps
  · rw [specFreshest_ts]
    exact getLoop_ts s.pid (s.get k) resps
  · intro resps2 hp
    show (getLoop s.pid (s.get k) resps2).ts = (getLoop s.pid (s.get k) resps).ts
    rw [getLoop_ts, getLoop_ts]
    exact specMaxTs_perm _ _ _ hp
  · intro hlen
    match resps, hlen with
    | [], _ => rfl
    | [r], _ =>
      show getLoop s.pid (s.get k) [r] = (specFreshest ⟨s.pid, s.get k⟩ [r]).v
      simp only [getLoop, specFreshest, specFresher, List.foldl_cons, List.foldl_nil]
      split_ifs <;> rfl
  · intro x hloc hresp
    refine ⟨getLoop_eq_of_unique s.pid (s.get k) x resps hloc hresp, ?_, ?_⟩
    · have hm := specFreshest_mem ⟨s.pid, s.get k⟩ resps
      have ht := specFreshest_ts ⟨s.pid, s.get k⟩ resps
      rcases List.mem_cons.mp hm with h | h
      · rw [h] at ht ⊢
        exact hloc ht
      · exact hresp _ h ht
    · intro resps2 hp
      apply getLoop_eq_of_unique s.pid (s.get k) x resps2
      · intro h
        rw [specMaxTs_perm _ _ _ hp] at h
        exact hloc h
      · intro r hr h
        rw [specMaxTs_perm _ _ _ hp] at h
        exact hresp r (hp.mem_iff.mp hr) h

/-- C2, witness: peer 0 with nothing stored for `"k"` receives `("a", 1)` from
peers 2 and 1; every candidate at the maximum timestamp 1 is `("a", 1)`, and `Get`
selects it. A third reply `("b", 1)` of peer 3 replaces it, since the timestamps
are equal and 3 is above this peer's id 0. -/
theorem Get_selects_max_timestamp_witness :
    (reader0.GetApply "k" [⟨2, ⟨"a", 1⟩⟩, ⟨1, ⟨"a", 1⟩⟩]).2 = ⟨"a", 1⟩ ∧
    (reader0.GetApply "k" ([⟨2, ⟨"a", 1⟩⟩, ⟨1, ⟨"a", 1⟩⟩] ++ [⟨3, ⟨"b", 1⟩⟩])).2 = ⟨"b", 1⟩ :=
  have h := Get_selects_max_timestamp reader0 "k" [⟨2, ⟨"a", 1⟩⟩, ⟨1, ⟨"a", 1⟩⟩]
  ⟨(h.2.2.2.2.2.2.2.2 ⟨"a", 1⟩ (by decide) (by decide)).1,
    (h.2.1 ⟨3, ⟨"b", 1⟩⟩).trans (by decide)⟩

/-- C3: in the three-peer cluster, peer 0 runs `Put("k", "c")`: its critical
section sets its counter to 1 and stores `("c", 1)`; before it reads `s.store[k]`
back for its WRITE request, its server loop applies the WRITE `("a", 1)` of peer 1
(equal timestamps, originator 1 above this peer's id 0); the WRITE requests that
`Put("k", "c")` broadcasts carry `("a", 1)` under originator 0, and `Put` returns. -/
theorem Put_broadcasts_other_value :
    (cluster3.run readBackTrace).map (fun c =>
      (c.log, (c.peer 0).wts,
        (c.net.filter fun m => decide (m.op = 1) && decide (m.round = Round.write)).map
          fun m => m.req)) =
      some ([Obs.putCall 1 "k" "a", Obs.putCall 0 "k" "c", Obs.putRet 0 "k"], 1,
        [⟨WRITE, 0, "k", ⟨"a", 1⟩⟩]) ∧
    (cluster3.run (readBackTrace.take 11)).map (fun c => (c.peer 0).get "k") =
      some ⟨"c", 1⟩ := by
  decide

/-- C4: in the three-peer cluster, the server loop of peer 0 takes the WRITE
`("a", 1)` of peer 1 from its queue and reads the stored value for `"k"`, which is
absent; the critical section of `Put("k", "c")` of peer 0 then stores `("c", 2)`;
the server loop goes on to apply the WRITE, whose timestamp 1 is above the 0 it
read: the stored entry `("c", 2)` is replaced by `("a", 1)`. -/
theorem server_overwrites_newer_value :
    (cluster3.run lateWriteTrace).map (fun c => ((c.peer 0).get "k", c.serving 0)) =
      some (⟨"c", 2⟩, some (0, Round.write, ⟨WRITE, 1, "k", ⟨"a", 1⟩⟩, ⟨"", 0⟩)) ∧
    (cluster3.run (lateWriteTrace ++ [Event.respond 0])).map (fun c => (c.peer 0).get "k") =
      some ⟨"a", 1⟩ := by
  decide

/-- The second half of the loop body applies a WRITE request according to the
value `v` that `s.get` returned earlier, whatever is stored by then. -/
theorem respond_WRITE_rule (s : KVS) (k x : String) (ts o : Int) (v : value) :
    (s.respond ⟨WRITE, o, k, ⟨x, ts⟩⟩ v).1.store k =
      (if ts > v.ts ∨ (ts = v.ts ∧ o > s.pid) then some ⟨x, ts⟩ else s.store k) := by
  unfold KVS.respond
  simp only [WRITE, READ, one_ne_zero, if_false, if_true]
  split_ifs
  · simp [KVS.put, Store.set]
  · rfl

/-- Handled with no client critical section between `s.get` and `s.put`, a WRITE
request `(k, (x, ts), o)` leaves under `k` the value `(x, ts)` if `ts` is strictly
greater than the stored timestamp, or equal to it with `o` strictly greater than
this peer's id, and the previous entry otherwise; the stored timestamp of an
absent key is 0, and no other key changes. -/
theorem handle_WRITE_rule (s : KVS) (k x : String) (ts o : Int) :
    (s.handle ⟨WRITE, o, k, ⟨x, ts⟩⟩).1.store k =
      (if ts > (s.get k).ts ∨ (ts = (s.get k).ts ∧ o > s.pid) then some ⟨x, ts⟩ else s.store k) ∧
    (∀ j : String, j ≠ k → (s.handle ⟨WRITE, o, k, ⟨x, ts⟩⟩).1.store j = s.store j) ∧
    (s.store k = none → (s.get k).ts = 0) := by
  refine ⟨?_, ?_, ?_⟩
  · unfold KVS.handle
    simp only [WRITE, READ, one_ne_zero, if_false, if_true]
    split_ifs
    · simp [KVS.put, Store.set]
    · rfl
  · intro j hj
    unfold KVS.handle
    simp only [WRITE, READ, one_ne_zero, if_false, if_true]
    split_ifs
    · simp [KVS.put, Store.set, hj]
    · rfl
  · intro h
    simp [KVS.get, Store.lookup, h, value.zero]

/-! ## Client calls on a peer with an empty directory -/

theorem Put_empty_directory (s : KVS) (k v : String) (ra wa : List response)
    (hp : s.peers = []) :
    s.Put k v ra wa = some (s.PutApply k v [], (s.PutApply k v []).PutWrite k) := by
  have h1 : (s.PutApply k v []).peers = [] := hp
  unfold KVS.Put
  rw [hp, broadcast_empty_directory]
  simp only [h1, broadcast_empty_directory]

theorem Get_empty_directory (s : KVS) (k : String) (ra wa : List response)
    (hp : s.peers = []) :
    s.Get k ra wa =
      some ((s.GetApply k []).1, (s.GetApply k []).1.GetWrite k (s.GetApply k []).2,
        (s.get k).v) := by
  have h1 : (s.GetApply k []).1.peers = [] := hp
  unfold KVS.Get
  rw [hp, broadcast_empty_directory]
  simp only [h1, broadcast_empty_directory]
  rfl

theorem PutApply_get (s : KVS) (k v : String) (resps : List response) (j : String) :
    ((s.PutApply k v resps).get j).v = if j = k then v else (s.get j).v := by
  by_cases hj : j = k
  · subst hj
    simp [KVS.get, PutApply_store, Store.lookup_set_same]
  · simp [KVS.get, PutApply_store, Store.lookup_set_other _ _ _ _ hj, hj]

theorem GetApply_nil_get (s : KVS) (k j : String) :
    (s.GetApply k []).1.get j = s.get j := by
  by_cases hj : j = k
  · subst hj
    simp [KVS.get, KVS.GetApply, Store.lookup_set_same, getLoop]
  · simp [KVS.get, KVS.GetApply, Store.lookup_set_other _ _ _ _ hj]

theorem runOps_empty_directory (s : KVS) (hp : s.peers = []) (ops : List Op) :
    runOps s ops = some (specRun (fun j => (s.get j).v) ops) := by
  induction ops generalizing s with
  | nil => rfl
  | cons op ops ih =>
    cases op with
    | put k v =>
      have h1 : (s.PutApply k v []).peers = [] := hp
      simp only [runOps, singletonStep, Put_empty_directory s k v [] [] hp, Option.map_some',
        ih _ h1, specRun, Option.toList_none, List.nil_append]
      congr 2
      funext j
      exact PutApply_get s k v [] j
    | get k =>
      have h1 : (s.GetApply k []).1.peers = [] := hp
      simp only [runOps, singletonStep, Get_empty_directory s k [] [] hp, Option.map_some',
        ih _ h1, specRun, Option.toList_some, List.singleton_append]
      congr 3
      funext j
      rw [GetApply_nil_get]

/-- C5: on a peer started with an empty directory, every finite history of `Put`
and `Get` calls returns, and its `Get` results are those of a plain map with
default `""` run on the same history. -/
theorem singleton_register (pid : Int) (ops : List Op) :
    runOps ((NewKVS pid).Start []) ops = some (specRun (fun _ => "") ops) :=
  runOps_empty_directory ((NewKVS pid).Start []) rfl ops

/-- C5, the history of `TestKVSSingleton`: the three `Get` calls return `v1`, `v2`, `vv`. -/
theorem singleton_register_witness :
    runOps ((NewKVS 0).Start [])
      [Op.put "k1" "v1", Op.put "k2" "v2", Op.get "k1", Op.get "k2", Op.put "k1" "vv",
        Op.get "k1"] = some ["v1", "v2", "vv"] :=
  (singleton_register 0 _).trans (by decide)

/-- C6: `broadcast` waits for `Q = len(peers) / 2` replies (0, 1 and 2 for
directories of 0, 2 and 4 peers); when at least `Q` replies arrive it returns the
first `Q` of them in arrival order, whatever arrives later. -/
theorem broadcast_quorum (s : KVS) (r : request) (peers : List Int) (arrivals : List response)
    (h : peers.length / 2 ≤ arrivals.length) :
    s.broadcast r peers arrivals = some (arrivals.take (peers.length / 2)) ∧
    (∀ late : List response,
      s.broadcast r peers (arrivals ++ late) = s.broadcast r peers arrivals) ∧
    quorum 0 = 0 ∧ quorum 2 = 1 ∧ quorum 4 = 2 := by
  have h1 : s.broadcast r peers arrivals = some (arrivals.take (peers.length / 2)) := by
    simp [KVS.broadcast, quorum, collect_eq_some _ _ _ h]
  refine ⟨h1, ?_, rfl, rfl, rfl⟩
  intro late
  have h2 : peers.length / 2 ≤ (arrivals ++ late).length := by
    rw [List.length_append]
    exact le_trans h (Nat.le_add_right _ _)
  rw [h1]
  simp only [KVS.broadcast, quorum, collect_eq_some _ _ _ h2, List.nil_append]
  rw [List.take_append_of_le_length h]

/-- C6, witness: with a directory of four peers and replies from peers 3, 1 and 4
in that order, `broadcast` returns the replies of peers 3 and 1. -/
theorem broadcast_quorum_witness :
    reader0.broadcast (reader0.readRequest "k") [1, 2, 3, 4]
      [⟨3, ⟨"c", 3⟩⟩, ⟨1, ⟨"a", 1⟩⟩, ⟨4, ⟨"d", 2⟩⟩] = some [⟨3, ⟨"c", 3⟩⟩, ⟨1, ⟨"a", 1⟩⟩] :=
  (broadcast_quorum reader0 (reader0.readRequest "k") [1, 2, 3, 4]
    [⟨3, ⟨"c", 3⟩⟩, ⟨1, ⟨"a", 1⟩⟩, ⟨4, ⟨"d", 2⟩⟩] (by decide)).1

/-- C7: in a three-peer cluster whose two external peers are stopped, no reply
ever reaches the collector of peer 0, which waits for `Q = 1`: `broadcast` does
not return, and neither do `Put` and `Get`. -/
theorem broadcast_blocks_below_quorum :
    quorum peer0.peers.length = 1 ∧
    peer0.broadcast (peer0.readRequest "k0") peer0.peers [] = none ∧
    peer0.Put "k0" "v0" [] [] = none ∧
    peer0.Get "k0" [] [] = none :=
  ⟨rfl, rfl, rfl, rfl⟩

/-- C8, counterexample: a read-phase response that carries the largest `int`
makes `Put` wrap the counter to `-2^63`, which is below the previous counter 0
and below the response's timestamp. -/
theorem Put_counter_wraps :
    (peer0.PutApply "k" "v" [⟨1, ⟨"x", maxInt⟩⟩]).wts = minInt ∧
    ¬ peer0.wts < (peer0.PutApply "k" "v" [⟨1, ⟨"x", maxInt⟩⟩]).wts ∧
    ¬ ∀ r ∈ [(⟨1, ⟨"x", maxInt⟩⟩ : response)],
        r.v.ts < (peer0.PutApply "k" "v" [⟨1, ⟨"x", maxInt⟩⟩]).wts := by
  decide

/-- C8, amended: handling any request, the install step of `Get`, `Start` and
`Stop` leave the counter `wts` unchanged; after `Put` with any read-phase
responses whose maximum with `wts` is below the largest `int`, the new `wts` is
strictly greater than the previous one and than the timestamp of every response. -/
theorem wts_discipline (s : KVS) (req : request) (k v : String) (resps : List response)
    (peers : List Int) :
    (s.handle req).1.wts = s.wts ∧
    (s.GetApply k resps).1.wts = s.wts ∧
    (s.Start peers).wts = s.wts ∧
    (stateOf s.Stop).wts = s.wts ∧
    (minInt ≤ s.wts → specMaxTs s.wts resps < maxInt →
      s.wts < (s.PutApply k v resps).wts ∧
      ∀ r ∈ resps, r.v.ts < (s.PutApply k v resps).wts) := by
  refine ⟨handle_wts s req, rfl, rfl, (Stop_store s).2, ?_⟩
  intro hlo hhi
  rw [PutApply_wts, wrapInt_succ _ (le_trans hlo (le_specMaxTs _ _)) hhi]
  refine ⟨Int.lt_add_one_iff.mpr (le_specMaxTs _ _), ?_⟩
  intro r hr
  exact Int.lt_add_one_iff.mpr (resp_le_specMaxTs _ _ r hr)

/-- C8, witness: peer 0 with counter 0 and a read-phase response of timestamp 4
ends with a counter above both. -/
theorem wts_discipline_witness :
    peer0.wts < (peer0.PutApply "k" "v" [⟨1, ⟨"x", 4⟩⟩]).wts ∧
    ∀ r ∈ [(⟨1, ⟨"x", 4⟩⟩ : response)], r.v.ts < (peer0.PutApply "k" "v" [⟨1, ⟨"x", 4⟩⟩]).wts :=
  (wts_discipline peer0 ⟨READ, 1, "k", value.zero⟩ "k" "v" [⟨1, ⟨"x", 4⟩⟩] [1, 2]).2.2.2.2
    (by decide) (by decide)

/-- C9, counterexample: with a directory of one peer, `Q + 1 = 1` voter out of
two replicas is not a strict majority, and two such quorums can be disjoint. -/
theorem quorum_not_majority_odd :
    quorum 1 = 0 ∧ ¬ (2 * (quorum 1 + 1) > 1 + 1) ∧
    ∃ A B : Finset (Fin (1 + 1)), quorum 1 + 1 ≤ A.card ∧ quorum 1 + 1 ≤ B.card ∧ A ∩ B = ∅ := by
  refine ⟨by decide, by decide, {0}, {1}, by decide, by decide, by decide⟩

/-- C9, amended: for every even directory size `m`, the `Q = m / 2` remote
replies together with the self-vote are a strict majority of the `m + 1` replicas,
so any two such quorums share a replica; for odd `m` they are exactly half of
them (`2 * (Q + 1) = m + 1`). -/
theorem quorum_intersection (m : Nat) :
    (m % 2 = 0 →
      2 * (quorum m + 1) > m + 1 ∧
      ∀ A B : Finset (Fin (m + 1)), quorum m + 1 ≤ A.card → quorum m + 1 ≤ B.card →
        (A ∩ B).Nonempty) ∧
    (m % 2 = 1 → 2 * (quorum m + 1) = m + 1) := by
  unfold quorum
  refine ⟨?_, ?_⟩
  · intro heven
    have h1 : 2 * (m / 2 + 1) > m + 1 := by omega
    refine ⟨h1, ?_⟩
    intro A B hA hB
    by_contra hne
    have hd : Disjoint A B := by
      rw [Finset.disjoint_iff_inter_eq_empty]
      exact Finset.not_nonempty_iff_eq_empty.mp hne
    have hc : (A ∪ B).card = A.card + B.card := Finset.card_union_of_disjoint hd
    have hle : (A ∪ B).card ≤ m + 1 := by
      simpa using Finset.card_le_univ (A ∪ B)
    omega
  · intro hodd
    omega

/-- C9, witness: with a directory of two peers, `Q + 1 = 2` of three replicas is
a strict majority. -/
theorem quorum_intersection_witness : 2 * (quorum 2 + 1) > 2 + 1 :=
  ((quorum_intersection 2).1 (by decide)).1

/-- C10: the value `Get(k)` selects has the maximum of the local timestamp for `k`
and the response timestamps; `Get` stores that value under `k`, leaves `wts`
unchanged, broadcasts a WRITE with that value and timestamp under its own id and
returns its payload. If the local timestamp for `k` (0 when `k` is absent) is
strictly smaller than `t`, the largest response timestamp, and `v` is the only
payload at `t`, the selected value is `(v, t)`. -/
theorem Get_read_repair (s : KVS) (k : String) (resps : List response) :
    (s.GetApply k resps).2.ts = specMaxTs (s.get k).ts resps ∧
    (s.GetApply k resps).1.store k = some (s.GetApply k resps).2 ∧
    (s.GetApply k resps).1.wts = s.wts ∧
    (s.GetApply k resps).1.GetWrite k (s.GetApply k resps).2
      = ⟨WRITE, s.pid, k, (s.GetApply k resps).2⟩ ∧
    (∀ readArrivals writeArrivals acks : List response,
      s.broadcast (s.readRequest k) s.peers readArrivals = some resps →
      s.broadcast ⟨WRITE, s.pid, k, (s.GetApply k resps).2⟩ s.peers writeArrivals = some acks →
      s.Get k readArrivals writeArrivals =
        some ((s.GetApply k resps).1, ⟨WRITE, s.pid, k, (s.GetApply k resps).2⟩,
          (s.GetApply k resps).2.v)) ∧
    (∀ (v : String) (t : Int), (s.get k).ts < t → (∃ r ∈ resps, r.v = ⟨v, t⟩) →
      (∀ r ∈ resps, r.v.ts ≤ t) → (∀ r ∈ resps, r.v.ts = t → r.v.v = v) →
      (s.GetApply k resps).2 = ⟨v, t⟩) := by
  refine ⟨getLoop_ts s.pid (s.get k) resps, ?_, rfl, rfl, ?_, ?_⟩
  · simp [KVS.GetApply, Store.set]
  · intro ra wa acks hr hw
    unfold KVS.Get
    simp only [hr]
    have hw2 : (s.GetApply k resps).1.broadcast
        ((s.GetApply k resps).1.GetWrite k (s.GetApply k resps).2)
        (s.GetApply k resps).1.peers wa = some acks := hw
    rw [hw2]
    rfl
  · intro v t hloc hex hle huniq
    have hmax : specMaxTs (s.get k).ts resps = t := by
      obtain ⟨r0, hr0, hv0⟩ := hex
      apply le_antisymm
      · rcases specMaxTs_attained (s.get k).ts resps with h | ⟨r, hr, h⟩
        · rw [h]; exact le_of_lt hloc
        · rw [h]; exact hle r hr
      · have := resp_le_specMaxTs (s.get k).ts resps r0 hr0
        rw [hv0] at this
        exact this
    apply getLoop_eq_of_unique s.pid (s.get k) ⟨v, t⟩ resps
    · intro h
      rw [hmax] at h
      omega
    · intro r hr h
      rw [hmax] at h
      have h1 := huniq r hr h
      cases hrv : r.v with
      | mk rv rts =>
        rw [hrv] at h h1
        simp only at h h1
        rw [h, h1]

/-- C10, witness (`TestKVSFaultTolerant`): peer 2, restarted with nothing stored
for `"k0"`, receives `("v0", 1)` from peer 0 and selects it; its `Get("k0")`
returns `"v0"`. -/
theorem Get_read_repair_witness :
    writer0Reply = [⟨0, ⟨"v0", 1⟩⟩] ∧ restarted2.store "k0" = none ∧
    (restarted2.GetApply "k0" writer0Reply).2 = ⟨"v0", 1⟩ :=
  ⟨by decide, by decide,
    (Get_read_repair restarted2 "k0" writer0Reply).2.2.2.2.2 "v0" 1
      (by decide) (by decide) (by decide) (by decide)⟩

/-! ## Fields that no operation of the server or the client changes -/

theorem handle_frame (s : KVS) (req : request) :
    (s.handle req).1.pid = s.pid ∧ (s.handle req).1.peers = s.peers ∧
    (s.handle req).1.running = s.running ∧ (s.handle req).1.incoming = s.incoming := by
  unfold KVS.handle KVS.put
  simp only
  split_ifs <;> exact ⟨rfl, rfl, rfl, rfl⟩

theorem handle_store_other (s : KVS) (req : request) (j : String) (hj : j ≠ req.k) :
    (s.handle req).1.store j = s.store j := by
  unfold KVS.handle KVS.put
  simp only
  split_ifs
  · rfl
  · simp [Store.set, hj]
  · rfl
  · rfl

theorem Stop_frame (s : KVS) :
    (stateOf s.Stop).pid = s.pid ∧ (stateOf s.Stop).peers = s.peers ∧
    (stateOf s.Stop).running = false := by
  unfold KVS.Stop
  simp only
  cases s.incoming <;> exact ⟨rfl, rfl, rfl⟩

theorem exec_running (s : KVS) (op : LocalOp) (h : op.isStart = false) :
    (s.exec op).running = s.running ∨ (s.exec op).running = false := by
  cases op with
  | put k v resps => exact Or.inl rfl
  | get k resps => exact Or.inl rfl
  | serve req => exact Or.inl (handle_frame s req).2.2.1
  | stop => exact Or.inr (Stop_frame s).2.2
  | start peers => simp [LocalOp.isStart] at h

theorem execAll_running_false (s : KVS) (ops : List LocalOp) (hs : s.running = false)
    (h : ∀ op ∈ ops, op.isStart = false) : (s.execAll ops).running = false := by
  induction ops generalizing s with
  | nil => exact hs
  | cons op ops ih =>
    apply ih
    · rcases exec_running s op (h op (List.mem_cons_self _ _)) with h1 | h1
      · rw [h1, hs]
      · exact h1
    · intro o ho
      exact h o (List.mem_cons_of_mem _ ho)

/-- C12: `Stop` followed by `Start` with any directory leaves the store and the
counter `wts` as they were; `Stop` alone leaves store, `wts`, id and directory
unchanged, and `Start` alone leaves store, `wts` and id unchanged. -/
theorem restart_preserves_data (s : KVS) (peers : List Int) :
    ((stateOf s.Stop).Start peers).store = s.store ∧
    ((stateOf s.Stop).Start peers).wts = s.wts ∧
    ((stateOf s.Stop).Start peers).pid = s.pid ∧
    (stateOf s.Stop).store = s.store ∧ (stateOf s.Stop).wts = s.wts ∧
    (stateOf s.Stop).pid = s.pid ∧ (stateOf s.Stop).peers = s.peers ∧
    (s.Start peers).store = s.store ∧ (s.Start peers).wts = s.wts ∧
    (s.Start peers).pid = s.pid :=
  ⟨(Stop_store s).1, (Stop_store s).2, (Stop_frame s).1, (Stop_store s).1, (Stop_store s).2,
    (Stop_frame s).1, (Stop_frame s).2.1, rfl, rfl, rfl⟩

/-- C13: `NewKVS(id)` has the given id, is not running, has an empty store and
`wts = 0`; `IsRunning` is true right after `Start` and false right after `Stop`,
and after `Stop` it stays false under every history of `Put`, `Get`, request
handling and `Stop` that contains no `Start`. -/
theorem running_flag_lifecycle (s : KVS) (pid : Int) (peers : List Int) (ops : List LocalOp) :
    (NewKVS pid).pid = pid ∧ (NewKVS pid).IsRunning = false ∧
    (∀ k : String, (NewKVS pid).store k = none) ∧ (NewKVS pid).wts = 0 ∧
    (s.Start peers).IsRunning = true ∧
    (stateOf s.Stop).IsRunning = false ∧
    ((stateOf s.Stop).Start peers).IsRunning = true ∧
    ((∀ op ∈ ops, op.isStart = false) → ((stateOf s.Stop).execAll ops).IsRunning = false) := by
  refine ⟨rfl, rfl, fun _ => rfl, rfl, rfl, (Stop_frame s).2.2, rfl, ?_⟩
  intro h
  exact execAll_running_false _ ops (Stop_frame s).2.2 h

/-- C13, witness: peer 0, stopped, then a `Put`, a `Get`, a WRITE request and a
second `Stop`: the flag is still false. -/
theorem running_flag_lifecycle_witness :
    ((stateOf peer0.Stop).execAll
      [LocalOp.put "k" "v" [⟨1, ⟨"", 0⟩⟩], LocalOp.get "k" [⟨2, ⟨"x", 3⟩⟩],
        LocalOp.serve ⟨WRITE, 1, "k", ⟨"y", 7⟩⟩, LocalOp.stop]).IsRunning = false :=
  (running_flag_lifecycle peer0 0 [1, 2]
    [LocalOp.put "k" "v" [⟨1, ⟨"", 0⟩⟩], LocalOp.get "k" [⟨2, ⟨"x", 3⟩⟩],
      LocalOp.serve ⟨WRITE, 1, "k", ⟨"y", 7⟩⟩, LocalOp.stop]).2.2.2.2.2.2.2 (by decide)

/-- C14: handling a READ request for `k` replies with this peer's id and the
stored value for `k`, which is the zero value `("", 0)` when `k` is absent, and
leaves the whole peer state, in particular store, `wts` and running flag, unchanged. -/
theorem handle_READ (s : KVS) (o : Int) (k : String) (x : value) :
    (s.handle ⟨READ, o, k, x⟩).2 = some ⟨s.pid, s.get k⟩ ∧
    (s.store k = none → s.get k = ⟨"", 0⟩) ∧
    (∀ y : value, s.store k = some y → s.get k = y) ∧
    (s.handle ⟨READ, o, k, x⟩).1 = s := by
  refine ⟨by simp [KVS.handle], ?_, ?_, by simp [KVS.handle]⟩
  · intro h
    simp [KVS.get, Store.lookup, h, value.zero]
  · intro y h
    simp [KVS.get, Store.lookup, h]

/-- C15: the server replies to a request taken from the queue iff its kind is
READ or WRITE; the reply to a WRITE is this peer's id with the zero value,
whether or not the write was applied; for any other kind there is no reply and
the state is unchanged. -/
theorem reply_discipline (s : KVS) (req : request) :
    ((s.handle req).2.isSome = true ↔ (req.rtype = READ ∨ req.rtype = WRITE)) ∧
    (req.rtype = WRITE → (s.handle req).2 = some ⟨s.pid, value.zero⟩) ∧
    (req.rtype ≠ READ → req.rtype ≠ WRITE → s.handle req = (s, none)) := by
  have hne : WRITE ≠ READ := by decide
  refine ⟨?_, ?_, ?_⟩
  · by_cases h1 : req.rtype = READ
    · simp [KVS.handle, h1]
    · by_cases h2 : req.rtype = WRITE
      · unfold KVS.handle
        simp only [h2, hne, if_false, if_true]
        simp
      · simp [KVS.handle, h1, h2]
  · intro h
    unfold KVS.handle KVS.put
    simp only [h, hne, if_false, if_true]
    split_ifs <;> rfl
  · intro h1 h2
    simp [KVS.handle, h1, h2]

/-- C15, witness: a WRITE that is older than the stored value is not applied
and is still acknowledged; a request of kind 2 gets no reply. -/
theorem reply_discipline_witness :
    (aheadReplica.handle ⟨WRITE, 2, "k", ⟨"old", 1⟩⟩).2 = some ⟨0, value.zero⟩ ∧
    aheadReplica.handle ⟨2, 2, "k", ⟨"z", 9⟩⟩ = (aheadReplica, none) :=
  ⟨(reply_discipline aheadReplica ⟨WRITE, 2, "k", ⟨"old", 1⟩⟩).2.1 rfl,
    (reply_discipline aheadReplica ⟨2, 2, "k", ⟨"z", 9⟩⟩).2.2 (by decide) (by decide)⟩

/-! ## Handling two WRITE requests -/

theorem handle_WRITE_eq (s : KVS) (o : Int) (k : String) (x : value) :
    (s.handle ⟨WRITE, o, k, x⟩).1 =
      if x.ts > (s.get k).ts ∨ (x.ts = (s.get k).ts ∧ o > s.pid) then s.put k x else s := by
  have hne : WRITE ≠ READ := by decide
  unfold KVS.handle
  simp only [hne, if_false, if_true]

theorem put_get_same (s : KVS) (k : String) (x : value) : (s.put k x).get k = x := by
  simp [KVS.put, KVS.get, Store.lookup_set_same]

theorem put_put (s : KVS) (k : String) (x y : value) : (s.put k x).put k y = s.put k y := by
  have h : (s.store.set k x).set k y = s.store.set k y := by
    funext j
    by_cases hj : j = k <;> simp [Store.set, hj]
  simp only [KVS.put, h]

/-- C18: two WRITE requests for the same key whose timestamps differ leave the
peer in the same state whichever is handled first. -/
theorem handle_WRITE_commute (s : KVS) (k : String) (oa ob : Int) (xa xb : value)
    (hts : xa.ts ≠ xb.ts) :
    ((s.handle ⟨WRITE, oa, k, xa⟩).1.handle ⟨WRITE, ob, k, xb⟩).1 =
      ((s.handle ⟨WRITE, ob, k, xb⟩).1.handle ⟨WRITE, oa, k, xa⟩).1 ∧
    ((s.handle ⟨WRITE, oa, k, xa⟩).1.handle ⟨WRITE, ob, k, xb⟩).1.store =
      ((s.handle ⟨WRITE, ob, k, xb⟩).1.handle ⟨WRITE, oa, k, xa⟩).1.store := by
  have h : ((s.handle ⟨WRITE, oa, k, xa⟩).1.handle ⟨WRITE, ob, k, xb⟩).1 =
      ((s.handle ⟨WRITE, ob, k, xb⟩).1.handle ⟨WRITE, oa, k, xa⟩).1 := by
    rw [handle_WRITE_eq s oa, handle_WRITE_eq s ob]
    by_cases ha : xa.ts > (s.get k).ts ∨ (xa.ts = (s.get k).ts ∧ oa > s.pid)
    · by_cases hb : xb.ts > (s.get k).ts ∨ (xb.ts = (s.get k).ts ∧ ob > s.pid)
      · rw [if_pos ha, if_pos hb, handle_WRITE_eq, handle_WRITE_eq, put_get_same, put_get_same]
        have hp : ∀ x : value, (s.put k x).pid = s.pid := fun _ => rfl
        rw [hp, hp]
        by_cases hlt : xa.ts < xb.ts
        · rw [if_pos (Or.inl hlt), if_neg (by omega), put_put]
        · rw [if_neg (by omega), if_pos (Or.inl (by omega)), put_put]
      · rw [if_pos ha, if_neg hb, handle_WRITE_eq, handle_WRITE_eq, put_get_same]
        have hp : ∀ x : value, (s.put k x).pid = s.pid := fun _ => rfl
        rw [hp, if_pos ha, if_neg (by omega)]
    · by_cases hb : xb.ts > (s.get k).ts ∨ (xb.ts = (s.get k).ts ∧ ob > s.pid)
      · rw [if_neg ha, if_pos hb, handle_WRITE_eq, handle_WRITE_eq, put_get_same]
        have hp : ∀ x : value, (s.put k x).pid = s.pid := fun _ => rfl
        rw [hp, if_pos hb, if_neg (by omega)]
      · rw [if_neg ha, if_neg hb, handle_WRITE_eq, handle_WRITE_eq, if_neg ha, if_neg hb]
  exact ⟨h, by rw [h]⟩

/-- C18, witness: on the replica that holds `("b", 2)` for `"k"`, the WRITEs
`("c", 5)` of peer 1 and `("d", 3)` of peer 2 leave `("c", 5)` in either order. -/
theorem handle_WRITE_commute_witness :
    ((aheadReplica.handle ⟨WRITE, 1, "k", ⟨"c", 5⟩⟩).1.handle ⟨WRITE, 2, "k", ⟨"d", 3⟩⟩).1.store "k"
      = some ⟨"c", 5⟩ ∧
    ((aheadReplica.handle ⟨WRITE, 2, "k", ⟨"d", 3⟩⟩).1.handle ⟨WRITE, 1, "k", ⟨"c", 5⟩⟩).1.store "k"
      = some ⟨"c", 5⟩ :=
  have h := (handle_WRITE_commute aheadReplica "k" 1 2 ⟨"c", 5⟩ ⟨"d", 3⟩ (by decide)).2
  ⟨by decide, by rw [← h]; decide⟩

/-- C19: `Stop` completes normally exactly when the inbound queue is open; on a
peer that was never started, and on a peer that `Stop` was already called on
with no `Start` since, it panics; after a `Start` it completes. -/
theorem Stop_precondition (s : KVS) (pid : Int) (peers : List Int) :
    (completes s.Stop = true ↔ ∃ q, s.incoming = Chan.live q) ∧
    completes (NewKVS pid).Stop = false ∧
    completes (stateOf s.Stop).Stop = false ∧
    completes (s.Start peers).Stop = true ∧
    completes ((stateOf s.Stop).Start peers).Stop = true := by
  refine ⟨?_, rfl, ?_, rfl, rfl⟩
  · unfold KVS.Stop
    simp only
    cases h : s.incoming <;> simp [completes]
  · unfold KVS.Stop
    simp only
    cases h : s.incoming <;> simp [completes, stateOf]

/-- C20: handling a request for `k`, the critical section of `Put(k, v)` and the
critical section of `Get(k)` leave the entry of every key other than `k`
unchanged, and leave the peer's id, directory and running flag unchanged. -/
theorem key_local_effects (s : KVS) (req : request) (k v : String) (resps : List response) :
    (∀ j : String, j ≠ req.k → (s.handle req).1.store j = s.store j) ∧
    (∀ j : String, j ≠ k → (s.PutApply k v resps).store j = s.store j) ∧
    (∀ j : String, j ≠ k → (s.GetApply k resps).1.store j = s.store j) ∧
    ((s.handle req).1.pid = s.pid ∧ (s.handle req).1.peers = s.peers ∧
      (s.handle req).1.running = s.running) ∧
    ((s.PutApply k v resps).pid = s.pid ∧ (s.PutApply k v resps).peers = s.peers ∧
      (s.PutApply k v resps).running = s.running) ∧
    ((s.GetApply k resps).1.pid = s.pid ∧ (s.GetApply k resps).1.peers = s.peers ∧
      (s.GetApply k resps).1.running = s.running) ∧
    (∀ (ra wa : List response) (out : KVS × request),
      s.Put k v ra wa = some out →
        (∀ j : String, j ≠ k → out.1.store j = s.store j) ∧ out.1.pid = s.pid ∧
        out.1.peers = s.peers ∧ out.1.running = s.running) ∧
    (∀ (ra wa : List response) (out : KVS × request × String),
      s.Get k ra wa = some out →
        (∀ j : String, j ≠ k → out.1.store j = s.store j) ∧ out.1.pid = s.pid ∧
        out.1.peers = s.peers ∧ out.1.running = s.running) := by
  have hput : ∀ (r : List response) (j : String), j ≠ k → (s.PutApply k v r).store j = s.store j := by
    intro r j hj
    rw [PutApply_store]
    simp [Store.set, hj]
  have hget : ∀ (r : List response) (j : String), j ≠ k → (s.GetApply k r).1.store j = s.store j := by
    intro r j hj
    simp [KVS.GetApply, Store.set, hj]
  refine ⟨fun j hj => handle_store_other s req j hj, hput resps, hget resps,
    ⟨(handle_frame s req).1, (handle_frame s req).2.1, (handle_frame s req).2.2.1⟩,
    ⟨rfl, rfl, rfl⟩, ⟨rfl, rfl, rfl⟩, ?_, ?_⟩
  · intro ra wa out h
    unfold KVS.Put at h
    cases hr : s.broadcast (s.readRequest k) s.peers ra with
    | none => simp [hr] at h
    | some r =>
      simp only [hr] at h
      cases hw : (s.PutApply k v r).broadcast ((s.PutApply k v r).PutWrite k)
          (s.PutApply k v r).peers wa with
      | none => simp [hw] at h
      | some acks =>
        simp only [hw, Option.some.injEq] at h
        subst h
        exact ⟨hput r, rfl, rfl, rfl⟩
  · intro ra wa out h
    unfold KVS.Get at h
    cases hr : s.broadcast (s.readRequest k) s.peers ra with
    | none => simp [hr] at h
    | some r =>
      simp only [hr] at h
      cases hw : (s.GetApply k r).1.broadcast ((s.GetApply k r).1.GetWrite k (s.GetApply k r).2)
          (s.GetApply k r).1.peers wa with
      | none => simp [hw] at h
      | some acks =>
        simp only [hw, Option.some.injEq] at h
        subst h
        exact ⟨hget r, rfl, rfl, rfl⟩

/-- C20, witness: on the replica that holds `("b", 2)` for `"k"`, a WRITE, a `Put`
and a `Get` for `"j"` leave the entry of `"k"` as it was. -/
theorem key_local_effects_witness :
    (aheadReplica.handle ⟨WRITE, 1, "j", ⟨"x", 9⟩⟩).1.store "k" = some ⟨"b", 2⟩ ∧
    (aheadReplica.PutApply "j" "v" [⟨1, ⟨"y", 4⟩⟩]).store "k" = some ⟨"b", 2⟩ ∧
    (aheadReplica.GetApply "j" [⟨1, ⟨"y", 4⟩⟩]).1.store "k" = some ⟨"b", 2⟩ :=
  have h := key_local_effects aheadReplica ⟨WRITE, 1, "j", ⟨"x", 9⟩⟩ "j" "v" [⟨1, ⟨"y", 4⟩⟩]
  ⟨(h.1 "k" (by decide)).trans (by decide), (h.2.1 "k" (by decide)).trans (by decide),
    (h.2.2.1 "k" (by decide)).trans (by decide)⟩

/-! ## Provenance of values in a cluster -/

theorem handle_eq_respond (s : KVS) (req : request) :
    s.handle req = s.respond req (s.get req.k) := rfl

theorem tracedIn_zero (log : List Obs) (k : String) : tracedIn log k value.zero := Or.inl rfl

theorem tracedIn_mono (log log2 : List Obs) (k : String) (x : value)
    (h : ∀ o ∈ log, o ∈ log2) (hx : tracedIn log k x) : tracedIn log2 k x := by
  rcases hx with hx | ⟨p, hp⟩
  · exact Or.inl hx
  · exact Or.inr ⟨p, h _ hp⟩

theorem tracedIn_lookup (log : List Obs) (m : Store) (k : String)
    (h : ∀ x, m k = some x → tracedIn log k x) : tracedIn log k (m.lookup k) := by
  unfold Store.lookup
  cases hm : m k with
  | none => exact tracedIn_zero log k
  | some x => exact h x hm

theorem tracedIn_getLoop (log : List Obs) (k : String) (pid : Int) (v : value)
    (resps : List response) (hv : tracedIn log k v) (hr : ∀ r ∈ resps, tracedIn log k r.v) :
    tracedIn log k (getLoop pid v resps) := by
  rcases getLoop_mem pid v resps with h | ⟨r, hmem, h⟩
  · rw [h]; exact hv
  · rw [h]; exact hr r hmem

theorem setCall_same (c : Cluster) (o : Nat) (call : Call) : c.setCall o call o = some call := by
  simp [Cluster.setCall]

theorem setCall_other (c : Cluster) (o i : Nat) (call : Call) (h : i ≠ o) :
    c.setCall o call i = c.calls i := by
  simp [Cluster.setCall, h]

theorem setPeer_same (c : Cluster) (p : Int) (s : KVS) : c.setPeer p s p = s := by
  simp [Cluster.setPeer]

theorem setPeer_other (c : Cluster) (p q : Int) (s : KVS) (h : q ≠ p) :
    c.setPeer p s q = c.peer q := by
  simp [Cluster.setPeer, h]

/-- A link from a request or reply to its call survives an update of a call
that keeps the key. -/
theorem link_setCall (c : Cluster) (o i : Nat) (old new : Call) (k : String)
    (hold : c.calls o = some old) (hk : new.k = old.k)
    (h : ∃ call, c.calls i = some call ∧ call.k = k) :
    ∃ call, c.setCall o new i = some call ∧ call.k = k := by
  obtain ⟨call, hc, hck⟩ := h
  by_cases hi : i = o
  · subst hi
    rw [hold] at hc
    cases hc
    exact ⟨new, setCall_same c i new, hk.trans hck⟩
  · exact ⟨call, (setCall_other c o i new hi).trans hc, hck⟩

/-- A link survives the creation of a call under an unused number. -/
theorem link_newCall (c : Cluster) (i : Nat) (new : Call) (k : String)
    (hfresh : ∀ o, c.next ≤ o → c.calls o = none)
    (h : ∃ call, c.calls i = some call ∧ call.k = k) :
    ∃ call, c.setCall c.next new i = some call ∧ call.k = k := by
  obtain ⟨call, hc, hck⟩ := h
  have hi : i ≠ c.next := by
    intro hi
    rw [hi, hfresh c.next (le_refl _)] at hc
    cases hc
  exact ⟨call, (setCall_other c c.next i new hi).trans hc, hck⟩

theorem Inv_start (dirs : Int → List Int) : (Cluster.start dirs).Inv := by
  constructor
  · intro p k x h
    simp [Cluster.start, NewKVS, KVS.Start] at h
  · intro m hm
    simp [Cluster.start] at hm
  · intro p op rnd req v h
    simp [Cluster.start] at h
  · intro r hr
    simp [Cluster.start] at hr
  · intro o call h
    simp [Cluster.start] at h
  · intro o _
    rfl
  · intro p k y h
    simp [Cluster.start] at h

theorem mem_outgoing (s : KVS) (op : Nat) (round : Round) (req : request) (m : Msg)
    (h : m ∈ s.outgoing op round req) : m.op = op ∧ m.req = req := by
  unfold KVS.outgoing at h
  obtain ⟨d, _, rfl⟩ := List.mem_map.mp h
  exact ⟨rfl, rfl⟩

/-- A client call that broadcasts its READ request keeps the invariant. -/
theorem Inv_call (c : Cluster) (hinv : c.Inv) (p : Int) (k : String) (new : Call) (ob : Obs)
    (hk : new.k = k) (hcol : new.collected = []) (hph : ∀ v, new.phase ≠ Phase.getWrite v)
    (hput : new.phase = Phase.putRead → Obs.putCall new.pid new.k new.v ∈ c.log ++ [ob])
    (hob : ∀ q j y, ob ≠ Obs.getRet q j y) :
    Cluster.Inv { c with
      net := c.net ++ (c.peer p).outgoing c.next Round.read ((c.peer p).readRequest k)
      calls := c.setCall c.next new
      next := c.next + 1
      log := c.log ++ [ob] } := by
  have hmono : ∀ o ∈ c.log, o ∈ c.log ++ [ob] := fun o ho => List.mem_append_left _ ho
  constructor
  · intro q j x h
    exact tracedIn_mono _ _ j x hmono (hinv.stored q j x h)
  · intro m hm
    rcases List.mem_append.mp hm with hm | hm
    · obtain ⟨h1, h2⟩ := hinv.sent m hm
      exact ⟨tracedIn_mono _ _ _ _ hmono h1, link_newCall c m.op new _ hinv.fresh h2⟩
    · obtain ⟨h1, h2⟩ := mem_outgoing _ _ _ _ m hm
      refine ⟨?_, new, ?_, ?_⟩
      · rw [h2]
        exact tracedIn_zero _ _
      · rw [h1]
        exact setCall_same c c.next new
      · rw [h2]
        exact hk
  · intro q op rnd req v h
    obtain ⟨h1, h2, h3⟩ := hinv.held q op rnd req v h
    exact ⟨tracedIn_mono _ _ _ _ hmono h1, tracedIn_mono _ _ _ _ hmono h2,
      link_newCall c op new _ hinv.fresh h3⟩
  · intro r hr
    obtain ⟨call, h1, h2⟩ := hinv.replied r hr
    have hi : r.op ≠ c.next := by
      intro hi
      rw [hi, hinv.fresh c.next (le_refl _)] at h1
      cases h1
    exact ⟨call, (setCall_other c c.next r.op new hi).trans h1, tracedIn_mono _ _ _ _ hmono h2⟩
  · intro o call h
    by_cases ho : o = c.next
    · subst ho
      have hc : call = new := by
        have h2 : c.setCall c.next new c.next = some call := h
        rw [setCall_same] at h2
        exact (Option.some.inj h2).symm
      subst hc
      refine ⟨?_, ?_, hput⟩
      · intro r hr
        rw [hcol] at hr
        cases hr
      · intro v hv
        exact absurd hv (hph v)
    · have h2 : c.calls o = some call := by
        have h3 : c.setCall c.next new o = some call := h
        rwa [setCall_other c c.next o new ho] at h3
      obtain ⟨h3, h4, h5⟩ := hinv.collected o call h2
      exact ⟨fun r hr => tracedIn_mono _ _ _ _ hmono (h3 r hr),
        fun v hv => tracedIn_mono _ _ _ _ hmono (h4 v hv), fun hp => hmono _ (h5 hp)⟩
  · intro o ho
    have h1 : c.next ≤ o := le_trans (Nat.le_succ _) ho
    have h2 : o ≠ c.next := by
      intro h2
      rw [h2] at ho
      exact Nat.not_succ_le_self _ ho
    exact (setCall_other c c.next o new h2).trans (hinv.fresh o h1)
  · intro q j y h
    rcases List.mem_append.mp h with h | h
    · rcases hinv.returned q j y h with h1 | ⟨w, h1⟩
      · exact Or.inl h1
      · exact Or.inr ⟨w, hmono _ h1⟩
    · rw [List.mem_singleton] at h
      exact absurd h.symm (hob q j y)

/-- Taking a request from a queue keeps the invariant. -/
theorem Inv_dequeue (c : Cluster) (hinv : c.Inv) (i : Nat) (m : Msg) (hm : c.net[i]? = some m) :
    Cluster.Inv { c with
      net := c.net.eraseIdx i
      serving := fun q =>
        if q = m.dest then some (m.op, m.round, m.req, (c.peer m.dest).get m.req.k)
        else c.serving q } := by
  have hmem : m ∈ c.net := List.getElem?_mem hm
  constructor
  · exact hinv.stored
  · intro x hx
    exact hinv.sent x (List.mem_of_mem_eraseIdx hx)
  · intro q op rnd req v h
    by_cases hq : q = m.dest
    · have h2 : some (m.op, m.round, m.req, (c.peer m.dest).get m.req.k) = some (op, rnd, req, v) := by
        have h3 : (if q = m.dest then some (m.op, m.round, m.req, (c.peer m.dest).get m.req.k)
            else c.serving q) = some (op, rnd, req, v) := h
        rwa [if_pos hq] at h3
      injection h2 with h2
      injection h2 with e1 h2
      injection h2 with e2 h2
      injection h2 with e3 e4
      subst e1 e2 e3 e4
      obtain ⟨h1, h3⟩ := hinv.sent m hmem
      exact ⟨h1, tracedIn_lookup _ _ _ (hinv.stored m.dest m.req.k), h3⟩
    · have h3 : (if q = m.dest then some (m.op, m.round, m.req, (c.peer m.dest).get m.req.k)
          else c.serving q) = some (op, rnd, req, v) := h
      rw [if_neg hq] at h3
      exact hinv.held q op rnd req v h3
  · exact hinv.replied
  · exact hinv.collected
  · exact hinv.fresh
  · exact hinv.returned

theorem respond_store (s : KVS) (req : request) (v : value) (j : String) (x : value)
    (h : (s.respond req v).1.store j = some x) : s.store j = some x ∨ (j = req.k ∧ x = req.v) := by
  unfold KVS.respond KVS.put at h
  simp only at h
  split_ifs at h
  · exact Or.inl h
  · by_cases hj : j = req.k
    · simp only [Store.set, hj, if_true, Option.some.injEq] at h
      exact Or.inr ⟨hj, h.symm⟩
    · simp only [Store.set, hj, if_false] at h
      exact Or.inl h
  · exact Or.inl h
  · exact Or.inl h

theorem respond_reply (s : KVS) (req : request) (v : value) (resp : response)
    (h : (s.respond req v).2 = some resp) : resp.v = v ∨ resp.v = value.zero := by
  unfold KVS.respond at h
  simp only at h
  split_ifs at h
  · simp only [Option.some.injEq] at h
    rw [← h]
    exact Or.inl rfl
  · simp only [Option.some.injEq] at h
    rw [← h]
    exact Or.inr rfl
  · simp only [Option.some.injEq] at h
    rw [← h]
    exact Or.inr rfl

/-- Finishing a request keeps the invariant. -/
theorem Inv_respond (c : Cluster) (hinv : c.Inv) (p : Int) (op : Nat) (rnd : Round)
    (req : request) (v : value) (hs : c.serving p = some (op, rnd, req, v)) :
    Cluster.Inv { c with
      peer := c.setPeer p ((c.peer p).respond req v).1
      serving := fun q => if q = p then none else c.serving q
      replies := c.replies ++
        (((c.peer p).respond req v).2.map fun resp =>
          ({ op := op, round := rnd, resp := resp } : Reply)).toList } := by
  obtain ⟨h1, h2, h3⟩ := hinv.held p op rnd req v hs
  constructor
  · intro q j x h
    by_cases hq : q = p
    · subst hq
      have h4 : ((c.peer q).respond req v).1.store j = some x := by
        have h5 : (c.setPeer q ((c.peer q).respond req v).1 q).store j = some x := h
        rwa [setPeer_same] at h5
      rcases respond_store _ _ _ _ _ h4 with h5 | ⟨h5, h6⟩
      · exact hinv.stored q j x h5
      · rw [h5, h6]
        exact h1
    · have h5 : (c.setPeer p ((c.peer p).respond req v).1 q).store j = some x := h
      rw [setPeer_other c p q _ hq] at h5
      exact hinv.stored q j x h5
  · exact hinv.sent
  · intro q op2 rnd2 req2 v2 h
    by_cases hq : q = p
    · have h5 : (if q = p then none else c.serving q) = some (op2, rnd2, req2, v2) := h
      rw [if_pos hq] at h5
      cases h5
    · have h5 : (if q = p then none else c.serving q) = some (op2, rnd2, req2, v2) := h
      rw [if_neg hq] at h5
      exact hinv.held q op2 rnd2 req2 v2 h5
  · intro r hr
    rcases List.mem_append.mp hr with hr | hr
    · exact hinv.replied r hr
    · cases hresp : ((c.peer p).respond req v).2 with
      | none =>
        rw [hresp] at hr
        cases hr
      | some resp =>
        rw [hresp] at hr
        simp only [Option.map_some', Option.toList_some, List.mem_singleton] at hr
        subst hr
        obtain ⟨call, hc, hck⟩ := h3
        refine ⟨call, hc, ?_⟩
        rw [hck]
        rcases respond_reply _ _ _ _ hresp with h6 | h6
        · rw [h6]
          exact h2
        · rw [h6]
          exact tracedIn_zero _ _
  · exact hinv.collected
  · exact hinv.fresh
  · exact hinv.returned

/-- A step of call `o` that keeps its key, leaves the server loops alone, adds
only requests of call `o` with traced values, adds no reply, and extends the log
keeps the invariant. -/
theorem Inv_advance (c : Cluster) (hinv : c.Inv) (o : Nat) (old new : Call)
    (hold : c.calls o = some old) (hk : new.k = old.k)
    (peer2 : Int → KVS) (net2 : List Msg) (replies2 : List Reply) (log2 : List Obs)
    (hlog : ∀ ob ∈ c.log, ob ∈ log2)
    (hpeer : ∀ (q : Int) (j : String) (x : value), (peer2 q).store j = some x → tracedIn log2 j x)
    (hnet : ∀ m ∈ net2,
      m ∈ c.net ∨ (tracedIn log2 m.req.k m.req.v ∧ m.op = o ∧ m.req.k = old.k))
    (hreplies : ∀ r ∈ replies2, r ∈ c.replies)
    (hnew1 : ∀ r ∈ new.collected, tracedIn log2 new.k r.v)
    (hnew2 : ∀ v, new.phase = Phase.getWrite v → tracedIn log2 new.k v)
    (hnew3 : new.phase = Phase.putRead → Obs.putCall new.pid new.k new.v ∈ log2)
    (hret : ∀ (q : Int) (j y : String), Obs.getRet q j y ∈ log2 →
      Obs.getRet q j y ∈ c.log ∨ y = "" ∨ ∃ w, Obs.putCall w j y ∈ log2) :
    Cluster.Inv { c with
      peer := peer2, net := net2, replies := replies2, calls := c.setCall o new, log := log2 } := by
  constructor
  · exact hpeer
  · intro m hm
    rcases hnet m hm with h | ⟨h1, h2, h3⟩
    · obtain ⟨h1, h2⟩ := hinv.sent m h
      exact ⟨tracedIn_mono _ _ _ _ hlog h1, link_setCall c o m.op old new _ hold hk h2⟩
    · refine ⟨h1, new, ?_, ?_⟩
      · rw [h2]
        exact setCall_same c o new
      · rw [h3]
        exact hk
  · intro q op rnd req v h
    obtain ⟨h1, h2, h3⟩ := hinv.held q op rnd req v h
    exact ⟨tracedIn_mono _ _ _ _ hlog h1, tracedIn_mono _ _ _ _ hlog h2,
      link_setCall c o op old new _ hold hk h3⟩
  · intro r hr
    obtain ⟨call, h1, h2⟩ := hinv.replied r (hreplies r hr)
    by_cases hi : r.op = o
    · rw [hi, hold] at h1
      cases h1
      refine ⟨new, ?_, ?_⟩
      · rw [hi]
        exact setCall_same c o new
      · rw [hk]
        exact tracedIn_mono _ _ _ _ hlog h2
    · exact ⟨call, (setCall_other c o r.op new hi).trans h1, tracedIn_mono _ _ _ _ hlog h2⟩
  · intro i call h
    by_cases hi : i = o
    · subst hi
      have hc : call = new := by
        have h2 : c.setCall i new i = some call := h
        rw [setCall_same] at h2
        exact (Option.some.inj h2).symm
      subst hc
      exact ⟨hnew1, hnew2, hnew3⟩
    · have h2 : c.calls i = some call := by
        have h3 : c.setCall o new i = some call := h
        rwa [setCall_other c o i new hi] at h3
      obtain ⟨h3, h4, h5⟩ := hinv.collected i call h2
      exact ⟨fun r hr => tracedIn_mono _ _ _ _ hlog (h3 r hr),
        fun v hv => tracedIn_mono _ _ _ _ hlog (h4 v hv), fun hp => hlog _ (h5 hp)⟩
  · intro i hi
    have hi2 : c.next ≤ i := hi
    have h1 : i ≠ o := by
      intro h1
      subst h1
      have h2 := hinv.fresh i hi2
      rw [hold] at h2
      cases h2
    exact (setCall_other c o i new h1).trans (hinv.fresh i hi2)
  · intro q j y h
    rcases hret q j y h with h1 | h1
    · rcases hinv.returned q j y h1 with h2 | ⟨w, h2⟩
      · exact Or.inl h2
      · exact Or.inr ⟨w, hlog _ h2⟩
    · exact h1

/-- The next section of a call keeps the invariant. -/
theorem Inv_proceed (c c2 : Cluster) (hinv : c.Inv) (o : Nat) (call : Call)
    (hcall : c.calls o = some call) (h : c.proceed o call = some c2) : c2.Inv := by
  obtain ⟨hcol, hsel, hput⟩ := hinv.collected o call hcall
  have hid : ∀ ob ∈ c.log, ob ∈ c.log := fun _ h => h
  have hstore : ∀ j : String, tracedIn c.log j ((c.peer call.pid).store.lookup j) :=
    fun j => tracedIn_lookup _ _ _ (hinv.stored call.pid j)
  unfold Cluster.proceed at h
  cases hph : call.phase with
  | putRead =>
    simp only [hph] at h
    split_ifs at h with hfull
    cases h
    refine Inv_advance c hinv o call
      { call with phase := Phase.putApplied, collected := [] }
      hcall rfl _ _ _ _ hid ?_ (fun m hm => Or.inl hm)
      (fun r hr => hr) ?_ ?_ ?_ (fun q j y hy => Or.inl hy)
    · intro q j x hx
      by_cases hq : q = call.pid
      · subst hq
        rw [setPeer_same, PutApply_store] at hx
        by_cases hj : j = call.k
        · subst hj
          simp only [Store.set, if_true, Option.some.injEq] at hx
          subst hx
          exact Or.inr ⟨call.pid, hput hph⟩
        · simp only [Store.set, hj, if_false] at hx
          exact hinv.stored _ j x hx
      · rw [setPeer_other c _ q _ hq] at hx
        exact hinv.stored q j x hx
    · intro r hr
      cases hr
    · intro v hv
      cases hv
    · intro hp
      cases hp
  | putApplied =>
    simp only [hph] at h
    cases h
    refine Inv_advance c hinv o call
      { call with phase := Phase.putWrite }
      hcall rfl _ _ _ _ hid hinv.stored ?_
      (fun r hr => hr) hcol ?_ ?_ (fun q j y hy => Or.inl hy)
    · intro m hm
      rcases List.mem_append.mp hm with hm | hm
      · exact Or.inl hm
      · obtain ⟨h1, h2⟩ := mem_outgoing _ _ _ _ m hm
        refine Or.inr ⟨?_, h1, ?_⟩
        · rw [h2]
          exact hstore call.k
        · rw [h2]
          rfl
    · intro v hv
      cases hv
    · intro hp
      cases hp
  | putWrite =>
    simp only [hph] at h
    split_ifs at h with hfull
    cases h
    refine Inv_advance c hinv o call
      { call with phase := Phase.done }
      hcall rfl _ _ _ _
      (fun ob hob => List.mem_append_left _ hob) ?_ (fun m hm => Or.inl hm)
      (fun r hr => hr) ?_ ?_ ?_ ?_
    · intro q j x hx
      exact tracedIn_mono _ _ _ _ (fun ob hob => List.mem_append_left _ hob)
        (hinv.stored q j x hx)
    · intro r hr
      exact tracedIn_mono _ _ _ _ (fun ob hob => List.mem_append_left _ hob) (hcol r hr)
    · intro v hv
      cases hv
    · intro hp
      cases hp
    · intro q j y hy
      rcases List.mem_append.mp hy with hy | hy
      · exact Or.inl hy
      · rw [List.mem_singleton] at hy
        cases hy
  | getRead =>
    simp only [hph] at h
    split_ifs at h with hfull
    cases h
    have hsel2 : tracedIn c.log call.k ((c.peer call.pid).GetApply call.k call.collected).2 :=
      tracedIn_getLoop _ _ _ _ _ (hstore call.k) hcol
    refine Inv_advance c hinv o call
      { call with phase := Phase.getWrite ((c.peer call.pid).GetApply call.k call.collected).2, collected := [] }
      hcall rfl _ _ _ _ hid ?_ ?_
      (fun r hr => hr) ?_ ?_ ?_ (fun q j y hy => Or.inl hy)
    · intro q j x hx
      by_cases hq : q = call.pid
      · subst hq
        rw [setPeer_same] at hx
        by_cases hj : j = call.k
        · subst hj
          simp only [KVS.GetApply, Store.set, if_true, Option.some.injEq] at hx
          subst hx
          exact hsel2
        · simp only [KVS.GetApply, Store.set, hj, if_false] at hx
          exact hinv.stored _ j x hx
      · rw [setPeer_other c _ q _ hq] at hx
        exact hinv.stored q j x hx
    · intro m hm
      rcases List.mem_append.mp hm with hm | hm
      · exact Or.inl hm
      · obtain ⟨h1, h2⟩ := mem_outgoing _ _ _ _ m hm
        refine Or.inr ⟨?_, h1, ?_⟩
        · rw [h2]
          exact hsel2
        · rw [h2]
          rfl
    · intro r hr
      cases hr
    · intro v hv
      cases hv
      exact hsel2
    · intro hp
      cases hp
  | getWrite v =>
    simp only [hph] at h
    split_ifs at h with hfull
    cases h
    refine Inv_advance c hinv o call
      { call with phase := Phase.done }
      hcall rfl _ _ _ _
      (fun ob hob => List.mem_append_left _ hob) ?_ (fun m hm => Or.inl hm)
      (fun r hr => hr) ?_ ?_ ?_ ?_
    · intro q j x hx
      exact tracedIn_mono _ _ _ _ (fun ob hob => List.mem_append_left _ hob)
        (hinv.stored q j x hx)
    · intro r hr
      exact tracedIn_mono _ _ _ _ (fun ob hob => List.mem_append_left _ hob) (hcol r hr)
    · intro w hw
      cases hw
    · intro hp
      cases hp
    · intro q j y hy
      rcases List.mem_append.mp hy with hy | hy
      · exact Or.inl hy
      · rw [List.mem_singleton] at hy
        cases hy
        rcases hsel v hph with h1 | ⟨w, h1⟩
        · rw [h1]
          exact Or.inr (Or.inl rfl)
        · exact Or.inr (Or.inr ⟨w, List.mem_append_left _ h1⟩)
  | done =>
    simp only [hph] at h
    cases h

/-- Every step keeps the invariant. -/
theorem Inv_step (c c2 : Cluster) (e : Event) (hinv : c.Inv) (h : c.step e = some c2) :
    c2.Inv := by
  cases e with
  | callPut p k v =>
    simp only [Cluster.step, Option.some.injEq] at h
    subst h
    exact Inv_call c hinv p k _ _ rfl rfl (fun w hw => by cases hw)
      (fun _ => List.mem_append_right _ (List.mem_singleton_self _)) (fun q j y hy => by cases hy)
  | callGet p k =>
    simp only [Cluster.step, Option.some.injEq] at h
    subst h
    exact Inv_call c hinv p k _ _ rfl rfl (fun w hw => by cases hw)
      (fun hp => by cases hp) (fun q j y hy => by cases hy)
  | dequeue i =>
    simp only [Cluster.step] at h
    cases hm : c.net[i]? with
    | none => simp [hm] at h
    | some m =>
      simp only [hm] at h
      split_ifs at h
      cases h
      exact Inv_dequeue c hinv i m hm
  | respond p =>
    simp only [Cluster.step] at h
    cases hs : c.serving p with
    | none => simp [hs] at h
    | some t =>
      obtain ⟨op, rnd, req, v⟩ := t
      simp only [hs] at h
      cases h
      exact Inv_respond c hinv p op rnd req v hs
  | recv i =>
    simp only [Cluster.step] at h
    cases hr : c.replies[i]? with
    | none => simp [hr] at h
    | some r =>
      simp only [hr] at h
      cases hc : c.calls r.op with
      | none => simp [hc] at h
      | some call =>
        simp only [hc] at h
        split_ifs at h
        cases h
        obtain ⟨hcol, hsel, hput⟩ := hinv.collected r.op call hc
        obtain ⟨call2, hc2, htr⟩ := hinv.replied r (List.getElem?_mem hr)
        rw [hc] at hc2
        cases hc2
        refine Inv_advance c hinv r.op call
          { call with collected := call.collected ++ [r.resp] } hc rfl _ _ _ _ (fun _ h => h) hinv.stored
          (fun m hm => Or.inl hm) (fun x hx => List.mem_of_mem_eraseIdx hx) ?_ hsel hput
          (fun q j y hy => Or.inl hy)
        intro x hx
        rcases List.mem_append.mp hx with hx | hx
        · exact hcol x hx
        · rw [List.mem_singleton] at hx
          rw [hx]
          exact htr
  | proceed o =>
    simp only [Cluster.step] at h
    cases hc : c.calls o with
    | none => simp [hc] at h
    | some call =>
      simp only [hc] at h
      exact Inv_proceed c c2 hinv o call hc h

/-- Every execution keeps the invariant. -/
theorem Inv_run (c c2 : Cluster) (es : List Event) (hinv : c.Inv) (h : c.run es = some c2) :
    c2.Inv := by
  induction es generalizing c with
  | nil =>
    simp only [Cluster.run, Option.some.injEq] at h
    subst h
    exact hinv
  | cons e es ih =>
    simp only [Cluster.run] at h
    cases hs : c.step e with
    | none => simp [hs] at h
    | some c1 =>
      simp only [hs] at h
      exact ih c1 (Inv_step c c1 e hinv hs) h

/-- C11: in the three-peer cluster, with all peers running and the client calls
issued one at a time, `s0.Put("k0", "v0")`, `s2.Put("k0", "v00")` and
`s0.Get("k0")` have an execution in which the `Get` returns `"v0"`: peer 2 holds
`("v0", 1)` when its read phase is answered by peer 1, which holds nothing, so it
labels `"v00"` with timestamp 1 as well, and `Get` at peer 0 prefers the reply
`("v0", 1)` of peer 1 to its local `("v00", 1)`. -/
theorem Get_returns_overwritten_value :
    (cluster3.run staleTrace).map (fun c => (c.log, (c.peer 0).get "k0", (c.peer 2).get "k0")) =
      some ([Obs.putCall 0 "k0" "v0", Obs.putRet 0 "k0", Obs.putCall 2 "k0" "v00",
        Obs.putRet 2 "k0", Obs.getCall 0 "k0", Obs.getRet 0 "k0" "v0"],
        ⟨"v0", 1⟩, ⟨"v00", 1⟩) := by
  decide

/-- C16: in every execution of a cluster whose peers start empty, the payload
stored under a key `k` at any peer is empty or the payload of a `Put` that was
called for `k`, and so is every payload returned by a `Get` of `k`. -/
theorem key_provenance (dirs : Int → List Int) (es : List Event) (c : Cluster)
    (h : (Cluster.start dirs).run es = some c) :
    (∀ (p : Int) (k : String) (x : value), (c.peer p).store k = some x →
      x.v = "" ∨ ∃ q, Obs.putCall q k x.v ∈ c.log) ∧
    (∀ (p : Int) (k y : String), Obs.getRet p k y ∈ c.log →
      y = "" ∨ ∃ q, Obs.putCall q k y ∈ c.log) := by
  have hinv := Inv_run _ c es (Inv_start dirs) h
  refine ⟨?_, hinv.returned⟩
  intro p k x hx
  rcases hinv.stored p k x hx with h1 | h1
  · rw [h1]
    exact Or.inl rfl
  · exact Or.inr h1

/-- C16, witness: after three concurrent `Put` calls for key `"0"` with payloads
`"0_0"`, `"0_1"`, `"0_2"`, `s0.Get("0")` returns `"0_2"`, the payload of the `Put`
of peer 2 for that key. -/
theorem key_provenance_witness :
    Obs.getRet 0 "0" "0_2" ∈ concurrentFinal.log ∧
      ("0_2" = "" ∨ ∃ q, Obs.putCall q "0" "0_2" ∈ concurrentFinal.log) :=
  ⟨by decide, (key_provenance dirs3 concurrentTrace concurrentFinal rfl).2 0 "0" "0_2" (by decide)⟩

/-- C17: in the three-peer cluster, two successive `Put` calls of peer 0 for
`"k"`, with payloads `"c"` and `"d"`, both broadcast WRITE requests labelled
`(2, 0)`. The critical section of the first mints timestamp 1, but its server loop
applies the WRITE `("b", 2)` of peer 1 before the call reads `s.store[k]` back, so
its request carries `("b", 2)` under originator 0; the second mints timestamp 2. -/
theorem Put_labels_collide :
    (cluster3.run labelTrace).map (fun c =>
      (c.log.filter fun o => decide (o = Obs.putCall 0 "k" "c" ∨ o = Obs.putRet 0 "k" ∨
          o = Obs.putCall 0 "k" "d"),
        (c.net.filter fun m => decide (m.round = Round.write) && decide (m.req.pid = 0)).map
          fun m => (m.op, m.req.v, m.req.v.ts, m.req.pid))) =
      some ([Obs.putCall 0 "k" "c", Obs.putRet 0 "k", Obs.putCall 0 "k" "d", Obs.putRet 0 "k"],
        [(2, ⟨"b", 2⟩, 2, 0), (3, ⟨"d", 2⟩, 2, 0)]) := by
  decide

end kvs
